import Mathlib

/-!
Verification development for the per-key replication core of HyperDex.

The development shallowly embeds three source files:
  * src/datatypes/map.cc        (the map micro-operation engine)
  * src/datatypes/microop.cc    (micro-op wire packing)
  * src/hyperdaemon/replication_manager.cc  (chain protocol and client API)

Byte strings are modelled as lists of naturals; machine integers are
naturals (with explicit reductions modulo powers of two where the source
overflows).  Functions from headers that are not part of the sources
(element step/compare/write functions, the scalar apply functions, the
e library packing helpers) are modelled from the specification and carry
a doc comment saying so.
-/

/-- A byte string: each entry is one byte.  Well-formed inputs have all
entries below 256; the predicate recording this is ByteOk. -/
abbrev Bytes := List Nat

/-- All entries of the list are genuine bytes. -/
def ByteOk (b : Bytes) : Prop := ∀ x ∈ b, x < 256

instance : DecidablePred ByteOk := fun b =>
  inferInstanceAs (Decidable (∀ x ∈ b, x < 256))

/-- Little-endian encoding of a natural into a fixed number of bytes. -/
def natLE : Nat → Nat → Bytes
  | 0, _ => []
  | w + 1, n => (n % 256) :: natLE w (n / 256)

/-- Little-endian decoding of a byte list into a natural. -/
def leToNat (b : Bytes) : Nat := b.foldr (fun x a => x + 256 * a) 0

/-- Modelled from the spec: e::pack32le writes a u32 as four
little-endian bytes (the value is truncated to 32 bits). -/
def pack32le (n : Nat) : Bytes := natLE 4 n

def UINT16_MAX : Nat := 65535

def UINT32_MAX : Nat := 4294967295

theorem natLE_length (w n : Nat) : (natLE w n).length = w := by
  induction w generalizing n with
  | zero => rfl
  | succ w ih => simp [natLE, ih]

theorem leToNat_natLE (w n : Nat) : leToNat (natLE w n) = n % 256 ^ w := by
  induction w generalizing n with
  | zero => simp [natLE, leToNat, Nat.mod_one]
  | succ w ih =>
    have h : leToNat (natLE (w + 1) n) = n % 256 + 256 * leToNat (natLE w (n / 256)) := rfl
    rw [h, ih, pow_succ, mul_comm (256 ^ w) 256, Nat.mod_mul]

/-- The elements scanned by the map engine, generic step form: a step
function consumes one element from the front of the input and returns the
element together with the remaining input, or fails. -/
abbrev StepFn := Bytes → Option (Bytes × Bytes)

/-- A step function consumes at least one byte whenever it succeeds. -/
def Prog (step : StepFn) : Prop :=
  ∀ b e r, step b = some (e, r) → r.length < b.length

/-- Modelled from the spec: a map string element is encoded as a u32
little-endian length followed by the content bytes.  The step function
parses one element and yields the content (the form in which map keys are
matched against client-supplied arguments) and the remaining input; it
fails on truncation. -/
def step_string : StepFn
  | b0 :: b1 :: b2 :: b3 :: rest =>
    let n := leToNat [b0, b1, b2, b3]
    if n ≤ rest.length then some (rest.take n, rest.drop n) else none
  | _ => none

/-- Modelled from the spec: a map int64 element is eight little-endian
bytes; the step function consumes exactly eight bytes. -/
def step_int64 : StepFn := fun b =>
  if 8 ≤ b.length then some (b.take 8, b.drop 8) else none

/-- Modelled from the spec: the string comparator orders byte strings
lexicographically (memcmp order with the shorter string first on a tie). -/
def compare_string : Bytes → Bytes → Bool
  | [], [] => false
  | [], _ :: _ => true
  | _ :: _, [] => false
  | a :: as, b :: bs => if a < b then true else if b < a then false else compare_string as bs

/-- Two's-complement reading of an eight-byte little-endian element. -/
def int64OfBytes (b : Bytes) : Int :=
  let n := leToNat b
  if n < 2 ^ 63 then (n : Int) else (n : Int) - 2 ^ 64

/-- Modelled from the spec: the int64 comparator orders elements by their
signed 64-bit value. -/
def compare_int64 (l r : Bytes) : Bool := int64OfBytes l < int64OfBytes r

/-- Modelled from the spec: writing a string element of a map prepends the
u32 little-endian length to the content bytes. -/
def write_string (e : Bytes) : Bytes := pack32le e.length ++ e

/-- Modelled from the spec: writing an int64 element copies its eight
bytes. -/
def write_int64 (e : Bytes) : Bytes := e

/-- Modelled from the spec: a top-level string attribute is an arbitrary
byte slice (its size is implicit), so the standalone validator accepts
everything. -/
def validate_as_string (_e : Bytes) : Bool := true

/-- Modelled from the spec: a standalone int64 value is exactly eight
little-endian bytes. -/
def validate_as_int64 (e : Bytes) : Bool := e.length = 8

/-- The micro-operation actions (datatypes/microop.h is not part of the
sources; the constructor set is the one matched by the engine in
datatypes/map.cc). -/
inductive microaction where
  | OP_FAIL
  | OP_SET
  | OP_STRING_APPEND
  | OP_STRING_PREPEND
  | OP_NUM_ADD
  | OP_NUM_SUB
  | OP_NUM_MUL
  | OP_NUM_DIV
  | OP_NUM_MOD
  | OP_NUM_AND
  | OP_NUM_OR
  | OP_NUM_XOR
  | OP_LIST_LPUSH
  | OP_LIST_RPUSH
  | OP_SET_ADD
  | OP_SET_REMOVE
  | OP_SET_INTERSECT
  | OP_SET_UNION
  | OP_MAP_ADD
  | OP_MAP_REMOVE
deriving DecidableEq, Repr

/-- The value types relevant to the map engine (hyperdex.h is not part of
the sources; the constructors are the tags used by datatypes/map.cc). -/
inductive hyperdatatype where
  | HYPERDATATYPE_STRING
  | HYPERDATATYPE_INT64
  | HYPERDATATYPE_FLOAT
  | HYPERDATATYPE_MAP_GENERIC
  | HYPERDATATYPE_MAP_STRING_STRING
  | HYPERDATATYPE_MAP_STRING_INT64
  | HYPERDATATYPE_MAP_STRING_FLOAT
  | HYPERDATATYPE_MAP_INT64_STRING
  | HYPERDATATYPE_MAP_INT64_INT64
  | HYPERDATATYPE_MAP_INT64_FLOAT
  | HYPERDATATYPE_MAP_FLOAT_STRING
  | HYPERDATATYPE_MAP_FLOAT_INT64
  | HYPERDATATYPE_MAP_FLOAT_FLOAT
  | HYPERDATATYPE_GARBAGE
deriving DecidableEq, Repr

/-- The error kinds raised by the micro-op engine. -/
inductive microerror where
  | MICROERR_MALFORMED
  | MICROERR_WRONGTYPE
  | MICROERR_WRONGACTION
  | MICROERR_OVERFLOW
deriving DecidableEq, Repr

/-- One micro-operation (datatypes/microop.h): target attribute, action,
and two typed arguments. -/
structure microop where
  attr : Nat
  action : microaction
  arg1 : Bytes
  arg1_datatype : hyperdatatype
  arg2 : Bytes
  arg2_datatype : hyperdatatype
deriving DecidableEq, Repr

/-- Modelled from the spec: the scalar string apply used at the top level
(SET replaces, APPEND/PREPEND concatenate); the result is written raw,
without a length, because top-level string attributes have implicit
size.  One step of the op loop. -/
def apply_string_one (old : Bytes) (op : microop) : Except microerror Bytes :=
  match op.action with
  | .OP_SET => .ok op.arg1
  | .OP_STRING_APPEND => .ok (old ++ op.arg1)
  | .OP_STRING_PREPEND => .ok (op.arg1 ++ old)
  | _ => .error .MICROERR_WRONGACTION

/-- Modelled from the spec: apply_string folds the scalar string apply
over the op sequence. -/
def apply_string (old : Bytes) : List microop → Except microerror Bytes
  | [] => .ok old
  | op :: ops =>
    match apply_string_one old op with
    | .ok next => apply_string next ops
    | .error e => .error e

/-- datatypes/map.cc, wrap_apply_string: run apply_string into the bytes
after a four-byte hole, then pack the u32 little-endian size of what was
written into the hole.  Needed because apply_string itself writes a raw
string while a string stored inside a map must carry its size. -/
def wrap_apply_string (old : Bytes) (ops : List microop) : Except microerror Bytes :=
  match apply_string old ops with
  | .ok s => .ok (pack32le s.length ++ s)
  | .error e => .error e

/-- Helper for the scalar int64 apply: both operands must be eight bytes
(the old value may also be empty, standing for zero), and the result is
reduced modulo 2^64 and written little-endian. -/
def apply_int64_arith (f : Nat → Nat → Nat) (old arg : Bytes) : Except microerror Bytes :=
  if old.length = 0 ∨ old.length = 8 then
    if arg.length = 8 then .ok (natLE 8 (f (leToNat old) (leToNat arg) % 2 ^ 64))
    else .error .MICROERR_MALFORMED
  else .error .MICROERR_MALFORMED

/-- Modelled from the spec: the scalar int64 apply; arithmetic is on the
signed 64-bit value with wraparound, bit operations act on the
little-endian representation, division and modulus by zero raise
OVERFLOW.  An empty old value is treated as zero (arithmetic on a
missing map key operates on an empty value). -/
def apply_int64_one (old : Bytes) (op : microop) : Except microerror Bytes :=
  match op.action with
  | .OP_SET => if op.arg1.length = 8 then .ok op.arg1 else .error .MICROERR_MALFORMED
  | .OP_NUM_ADD => apply_int64_arith (· + ·) old op.arg1
  | .OP_NUM_SUB => apply_int64_arith (fun a b => a + (2 ^ 64 - b % 2 ^ 64)) old op.arg1
  | .OP_NUM_MUL => apply_int64_arith (· * ·) old op.arg1
  | .OP_NUM_DIV =>
    if leToNat op.arg1 = 0 then .error .MICROERR_OVERFLOW
    else apply_int64_arith (· / ·) old op.arg1
  | .OP_NUM_MOD =>
    if leToNat op.arg1 = 0 then .error .MICROERR_OVERFLOW
    else apply_int64_arith (· % ·) old op.arg1
  | .OP_NUM_AND => apply_int64_arith Nat.land old op.arg1
  | .OP_NUM_OR => apply_int64_arith Nat.lor old op.arg1
  | .OP_NUM_XOR => apply_int64_arith Nat.xor old op.arg1
  | _ => .error .MICROERR_WRONGACTION

/-- Modelled from the spec: apply_int64 folds the scalar int64 apply over
the op sequence. -/
def apply_int64 (old : Bytes) : List microop → Except microerror Bytes
  | [] => .ok old
  | op :: ops =>
    match apply_int64_one old op with
    | .ok next => apply_int64 next ops
    | .error e => .error e

/-- datatypes/map.cc, validate_map: walk the byte string, stepping one key
element and one value element per iteration and requiring each key to be
strictly greater than the previous one; succeed when the input is
consumed exactly.  The C loop advances a pointer; here the remaining
input shrinks at every successful step, and the fuel argument (always
called with more fuel than there are bytes) bounds the recursion exactly
as the pointer bound bounds the loop. -/
def validate_map_go (stepK stepV : StepFn) (cmp : Bytes → Bytes → Bool) :
    Nat → Bool → Bytes → Bytes → Bool
  | 0, _, _, _ => false
  | fuel + 1, has_old, old, bytes =>
    if bytes.isEmpty then true
    else
      match stepK bytes with
      | none => false
      | some (k, r1) =>
        match stepV r1 with
        | none => false
        | some (_v, r2) =>
          if has_old && !cmp old k then false
          else validate_map_go stepK stepV cmp fuel true k r2

/-- datatypes/map.cc, validate_map, outer entry: no previous key yet. -/
def validate_map (stepK stepV : StepFn) (cmp : Bytes → Bytes → Bool) (m : Bytes) : Bool :=
  validate_map_go stepK stepV cmp (m.length + 1) false [] m

/-- datatypes/map.cc, validate_as_map_string_string as generated by the
VALIDATE_MAP macro. -/
def validate_as_map_string_string (m : Bytes) : Bool :=
  validate_map step_string step_string compare_string m

/-- datatypes/map.cc, validate_as_map_string_int64 as generated by the
VALIDATE_MAP macro. -/
def validate_as_map_string_int64 (m : Bytes) : Bool :=
  validate_map step_string step_int64 compare_string m

/-- datatypes/map.cc, validate_as_map_int64_int64 as generated by the
VALIDATE_MAP macro. -/
def validate_as_map_int64_int64 (m : Bytes) : Bool :=
  validate_map step_int64 step_int64 compare_int64 m

/-- The byte string is a concatenation of alternating key and value
elements, each consumed by its step function, ending exactly at the end
of the input; the listed pairs are the parsed elements in order. -/
inductive PairsParse (stepK stepV : StepFn) : Bytes → List (Bytes × Bytes) → Prop where
  | nil : PairsParse stepK stepV [] []
  | cons {b k r1 v r2 ps} :
      stepK b = some (k, r1) → stepV r1 = some (v, r2) →
      PairsParse stepK stepV r2 ps →
      PairsParse stepK stepV b ((k, v) :: ps)

/-- The key sequence is strictly increasing under the comparator; when the
flag is set the first key must additionally exceed the given previous
key. -/
def chainOk (cmp : Bytes → Bytes → Bool) : Bool → Bytes → List Bytes → Prop
  | _, _, [] => True
  | has_old, old, k :: ks => (has_old = true → cmp old k = true) ∧ chainOk cmp true k ks

theorem validate_map_go_iff (stepK stepV : StepFn) (cmp : Bytes → Bytes → Bool)
    (hK : Prog stepK) (hV : Prog stepV) :
    ∀ fuel bytes, bytes.length < fuel → ∀ has_old old,
      (validate_map_go stepK stepV cmp fuel has_old old bytes = true ↔
        ∃ ps, PairsParse stepK stepV bytes ps ∧ chainOk cmp has_old old (ps.map Prod.fst)) := by
  intro fuel
  induction fuel with
  | zero => intro bytes h; omega
  | succ fuel ih =>
    intro bytes hlen has_old old
    by_cases hb : bytes = []
    · subst hb
      simp only [validate_map_go, List.isEmpty_nil, if_true]
      constructor
      · intro _
        exact ⟨[], PairsParse.nil, trivial⟩
      · intro _
        trivial
    · have hne : bytes.isEmpty = false := by
        simp [List.isEmpty_iff, hb]
      constructor
      · intro hval
        simp only [validate_map_go, hne, Bool.false_eq_true, if_false] at hval
        split at hval
        · exact absurd hval (by simp)
        · rename_i k r1 hsk
          split at hval
          · exact absurd hval (by simp)
          · rename_i v r2 hsv
            split at hval
            · exact absurd hval (by simp)
            · rename_i hguard
              have hr1 := hK bytes k r1 hsk
              have hr2 := hV r1 v r2 hsv
              have hr2len : r2.length < fuel := by omega
              obtain ⟨ps, hps, hchain⟩ := (ih r2 hr2len true k).mp hval
              refine ⟨(k, v) :: ps, PairsParse.cons hsk hsv hps, ?_⟩
              simp only [List.map_cons, chainOk]
              refine ⟨?_, hchain⟩
              intro hho
              by_contra hcmp
              exact hguard (by simp [hho, Bool.eq_false_iff.mpr hcmp])
      · rintro ⟨ps, hps, hchain⟩
        cases hps with
        | nil => exact absurd rfl hb
        | cons hsk hsv hrest =>
          rename_i k r1 v r2 ps'
          simp only [List.map_cons, chainOk] at hchain
          obtain ⟨hfirst, hchain'⟩ := hchain
          have hguard : (has_old && !cmp old k) = false := by
            cases hho : has_old with
            | false => simp
            | true => simp [hfirst hho]
          have hr1 := hK bytes k r1 hsk
          have hr2 := hV r1 v r2 hsv
          have hr2len : r2.length < fuel := by omega
          simp only [validate_map_go, hne, Bool.false_eq_true, if_false, hsk, hsv, hguard]
          exact (ih r2 hr2len true k).mpr ⟨ps', hrest, hchain'⟩

/-- Characterization of validate_map at the outer entry point. -/
theorem validate_map_iff (stepK stepV : StepFn) (cmp : Bytes → Bytes → Bool)
    (hK : Prog stepK) (hV : Prog stepV) (m : Bytes) :
    validate_map stepK stepV cmp m = true ↔
      ∃ ps, PairsParse stepK stepV m ps ∧ chainOk cmp false [] (ps.map Prod.fst) := by
  exact validate_map_go_iff stepK stepV cmp hK hV (m.length + 1) m (Nat.lt_succ_self _) false []

theorem step_string_prog : Prog step_string := by
  intro b e r h
  match b with
  | [] => exact absurd h (by simp [step_string])
  | [b0] => exact absurd h (by simp [step_string])
  | [b0, b1] => exact absurd h (by simp [step_string])
  | [b0, b1, b2] => exact absurd h (by simp [step_string])
  | b0 :: b1 :: b2 :: b3 :: rest =>
    simp only [step_string] at h
    by_cases hle : leToNat [b0, b1, b2, b3] ≤ rest.length
    · rw [if_pos hle] at h
      cases h
      simp only [List.length_drop, List.length_cons]
      omega
    · rw [if_neg hle] at h; cases h

theorem step_int64_prog : Prog step_int64 := by
  intro b e r h
  simp only [step_int64] at h
  by_cases hle : 8 ≤ b.length
  · rw [if_pos hle] at h
    cases h
    simp only [List.length_drop]
    omega
  · rw [if_neg hle] at h; cases h

/-- Lookup in the engine's in-memory map (std::map keyed by byte
equality; entry order is irrelevant because the engine re-sorts before
emitting). -/
def map_find (k : Bytes) (es : List (Bytes × Bytes)) : Option Bytes :=
  (es.find? (fun p => p.1 == k)).map Prod.snd

/-- std::map::insert semantics: keep the existing entry on a duplicate
key. -/
def map_insert_keep (k v : Bytes) (es : List (Bytes × Bytes)) : List (Bytes × Bytes) :=
  if es.any (fun p => p.1 == k) then es else es ++ [(k, v)]

/-- std::map::operator[] assignment semantics: overwrite the entry with
this key, or add it. -/
def map_assign (k v : Bytes) : List (Bytes × Bytes) → List (Bytes × Bytes)
  | [] => [(k, v)]
  | p :: es => if p.1 == k then (k, v) :: es else p :: map_assign k v es

/-- std::map::erase semantics: drop the entry with this key (keys are
unique, so dropping the first match suffices). -/
def map_erase (k : Bytes) : List (Bytes × Bytes) → List (Bytes × Bytes)
  | [] => []
  | p :: es => if p.1 == k then es else p :: map_erase k es

/-- datatypes/map.cc, apply_map, decode loop: parse the old value into
the in-memory map with insert-keep semantics; any step failure is
MALFORMED.  Fuel bounds the loop exactly as the pointer bound does in C
(the entry point always provides more fuel than bytes). -/
def decode_map_go (stepK stepV : StepFn) :
    Nat → List (Bytes × Bytes) → Bytes → Except microerror (List (Bytes × Bytes))
  | 0, _, _ => .error .MICROERR_MALFORMED
  | fuel + 1, es, bytes =>
    if bytes.isEmpty then .ok es
    else
      match stepK bytes with
      | none => .error .MICROERR_MALFORMED
      | some (k, r1) =>
        match stepV r1 with
        | none => .error .MICROERR_MALFORMED
        | some (v, r2) => decode_map_go stepK stepV fuel (map_insert_keep k v es) r2

/-- Decode an encoded map into the in-memory entry list. -/
def decode_map (stepK stepV : StepFn) (bytes : Bytes) :
    Except microerror (List (Bytes × Bytes)) :=
  decode_map_go stepK stepV (bytes.length + 1) [] bytes

/-- datatypes/map.cc, apply_map_microop: look up the entry for the op's
map key (an absent entry reads as the empty value), run the scalar apply
into a fresh scratch buffer, and store the written slice back under the
key. -/
def apply_map_microop (apply_pod : Bytes → List microop → Except microerror Bytes)
    (es : List (Bytes × Bytes)) (op : microop) :
    Except microerror (List (Bytes × Bytes)) :=
  match apply_pod ((map_find op.arg2 es).getD []) [op] with
  | .ok out => .ok (map_assign op.arg2 out es)
  | .error e => .error e

/-- datatypes/map.cc, apply_map, one iteration of the op loop: SET
replaces or clears the whole map, MAP_ADD/MAP_REMOVE edit one entry, the
scalar actions route one entry through the scalar apply, anything else
is WRONGACTION. -/
def apply_map_one_op (stepK stepV : StepFn) (validateK validateV : Bytes → Bool)
    (apply_pod : Bytes → List microop → Except microerror Bytes)
    (container keyt valt : hyperdatatype)
    (op : microop) (es : List (Bytes × Bytes)) :
    Except microerror (List (Bytes × Bytes)) :=
  match op.action with
  | .OP_SET =>
    if op.arg1_datatype = .HYPERDATATYPE_MAP_GENERIC ∧ op.arg1.length = 0 then
      .ok []
    else if op.arg1_datatype = .HYPERDATATYPE_MAP_GENERIC then
      .error .MICROERR_MALFORMED
    else if container ≠ op.arg1_datatype then
      .error .MICROERR_WRONGTYPE
    else
      decode_map stepK stepV op.arg1
  | .OP_MAP_ADD =>
    if keyt ≠ op.arg2_datatype then .error .MICROERR_WRONGTYPE
    else if !validateK op.arg2 then .error .MICROERR_MALFORMED
    else if valt ≠ op.arg1_datatype then .error .MICROERR_WRONGTYPE
    else if !validateV op.arg1 then .error .MICROERR_MALFORMED
    else .ok (map_assign op.arg2 op.arg1 es)
  | .OP_MAP_REMOVE =>
    if keyt ≠ op.arg2_datatype then .error .MICROERR_WRONGTYPE
    else if !validateK op.arg2 then .error .MICROERR_MALFORMED
    else .ok (map_erase op.arg2 es)
  | .OP_STRING_APPEND | .OP_STRING_PREPEND
  | .OP_NUM_ADD | .OP_NUM_SUB | .OP_NUM_MUL | .OP_NUM_DIV
  | .OP_NUM_MOD | .OP_NUM_AND | .OP_NUM_OR | .OP_NUM_XOR =>
    if keyt ≠ op.arg2_datatype then .error .MICROERR_WRONGTYPE
    else if !validateK op.arg2 then .error .MICROERR_MALFORMED
    else apply_map_microop apply_pod es op
  | _ => .error .MICROERR_WRONGACTION

/-- datatypes/map.cc, apply_map, op loop: process the ops in order on the
in-memory map, stopping at the first error. -/
def apply_map_ops (stepK stepV : StepFn) (validateK validateV : Bytes → Bool)
    (apply_pod : Bytes → List microop → Except microerror Bytes)
    (container keyt valt : hyperdatatype) :
    List microop → List (Bytes × Bytes) → Except microerror (List (Bytes × Bytes))
  | [], es => .ok es
  | op :: ops, es =>
    match apply_map_one_op stepK stepV validateK validateV apply_pod
        container keyt valt op es with
    | .error e => .error e
    | .ok es2 =>
      apply_map_ops stepK stepV validateK validateV apply_pod container keyt valt ops es2

/-- datatypes/map.cc, cmp_pair_first: compare entry pairs by key. -/
def cmp_pair_first (cmp : Bytes → Bytes → Bool) (l r : Bytes × Bytes) : Bool :=
  cmp l.1 r.1

/-- Insertion step of the final sort (std::sort with the pair
comparator; the result is determined because keys are distinct under the
comparators used). -/
def m_insert (cmpP : (Bytes × Bytes) → (Bytes × Bytes) → Bool) (x : Bytes × Bytes) :
    List (Bytes × Bytes) → List (Bytes × Bytes)
  | [] => [x]
  | y :: l => if cmpP x y then x :: y :: l else y :: m_insert cmpP x l

/-- The final sort of the entry vector before emission. -/
def m_sort (cmpP : (Bytes × Bytes) → (Bytes × Bytes) → Bool) :
    List (Bytes × Bytes) → List (Bytes × Bytes)
  | [] => []
  | x :: l => m_insert cmpP x (m_sort cmpP l)

/-- datatypes/map.cc, apply_map, emission loop: write each pair with the
element writers. -/
def map_emit (writeK writeV : Bytes → Bytes) : List (Bytes × Bytes) → Bytes
  | [] => []
  | (k, v) :: es => writeK k ++ writeV v ++ map_emit writeK writeV es

/-- The decode-and-apply stage of apply_map: everything before the final
sort and emission (the in-memory entry list it produces is what the C
code holds in its std::map when the op loop finishes). -/
def apply_map_entries (stepK stepV : StepFn) (validateK validateV : Bytes → Bool)
    (apply_pod : Bytes → List microop → Except microerror Bytes)
    (container keyt valt : hyperdatatype)
    (old_value : Bytes) (ops : List microop) :
    Except microerror (List (Bytes × Bytes)) :=
  match decode_map stepK stepV old_value with
  | .error e => .error e
  | .ok es => apply_map_ops stepK stepV validateK validateV apply_pod container keyt valt ops es

/-- datatypes/map.cc, apply_map: decode, apply the ops, sort the
surviving entries by key, and emit them with the element writers. -/
def apply_map (stepK stepV : StepFn) (validateK validateV : Bytes → Bool)
    (cmpK : Bytes → Bytes → Bool) (writeK writeV : Bytes → Bytes)
    (apply_pod : Bytes → List microop → Except microerror Bytes)
    (container keyt valt : hyperdatatype)
    (old_value : Bytes) (ops : List microop) : Except microerror Bytes :=
  match apply_map_entries stepK stepV validateK validateV apply_pod container keyt valt
      old_value ops with
  | .error e => .error e
  | .ok es => .ok (map_emit writeK writeV (m_sort (cmp_pair_first cmpK) es))

/-- datatypes/map.cc, apply_map_string_string as generated by the
APPLY_MAP macro: the macro body passes apply_ ## VAL_T — plain
apply_string — as the scalar apply; its WRAP_PREFIX argument
(wrap_apply_ for this instance) is never used in the body. -/
def apply_map_string_string (old_value : Bytes) (ops : List microop) :
    Except microerror Bytes :=
  apply_map step_string step_string validate_as_string validate_as_string
    compare_string write_string write_string apply_string
    .HYPERDATATYPE_MAP_STRING_STRING .HYPERDATATYPE_STRING .HYPERDATATYPE_STRING
    old_value ops

/-- The entry-list stage of apply_map_string_string, with the same scalar
apply routing as the source macro (plain apply_string). -/
def apply_map_entries_string_string (old_value : Bytes) (ops : List microop) :
    Except microerror (List (Bytes × Bytes)) :=
  apply_map_entries step_string step_string validate_as_string validate_as_string
    apply_string
    .HYPERDATATYPE_MAP_STRING_STRING .HYPERDATATYPE_STRING .HYPERDATATYPE_STRING
    old_value ops

/-- datatypes/map.cc, apply_map_string_int64 as generated by the
APPLY_MAP macro. -/
def apply_map_string_int64 (old_value : Bytes) (ops : List microop) :
    Except microerror Bytes :=
  apply_map step_string step_int64 validate_as_string validate_as_int64
    compare_string write_string write_int64 apply_int64
    .HYPERDATATYPE_MAP_STRING_INT64 .HYPERDATATYPE_STRING .HYPERDATATYPE_INT64
    old_value ops

/-- datatypes/map.cc, apply_map_int64_int64 as generated by the
APPLY_MAP macro. -/
def apply_map_int64_int64 (old_value : Bytes) (ops : List microop) :
    Except microerror Bytes :=
  apply_map step_int64 step_int64 validate_as_int64 validate_as_int64
    compare_int64 write_int64 write_int64 apply_int64
    .HYPERDATATYPE_MAP_INT64_INT64 .HYPERDATATYPE_INT64 .HYPERDATATYPE_INT64
    old_value ops

/-- C7: for every byte string and every step/comparator instantiation of
the validator (one per key/value type pair), validate_map returns true
exactly when the byte string is a concatenation of alternating
well-formed key and value elements that consumes the input entirely with
keys strictly increasing under the key comparator; truncation, duplicate
or out-of-order keys, and trailing bytes all make it return false. -/
theorem claim_C7_validate_map_iff (stepK stepV : StepFn) (cmp : Bytes → Bytes → Bool)
    (hK : Prog stepK) (hV : Prog stepV) (m : Bytes) :
    validate_map stepK stepV cmp m = true ↔
      ∃ ps, PairsParse stepK stepV m ps ∧ chainOk cmp false [] (ps.map Prod.fst) :=
  validate_map_iff stepK stepV cmp hK hV m

/-- Witness for C7 at the string/int64 instantiation on the encoding of
a one-entry map. -/
theorem claim_C7_witness :
    ∃ ps, PairsParse step_string step_int64 [1, 0, 0, 0, 98, 2, 0, 0, 0, 0, 0, 0, 0] ps ∧
      chainOk compare_string false [] (ps.map Prod.fst) :=
  (claim_C7_validate_map_iff step_string step_int64 compare_string
    step_string_prog step_int64_prog [1, 0, 0, 0, 98, 2, 0, 0, 0, 0, 0, 0, 0]).mp rfl

/-- The slice begins with a u32 little-endian length prefix describing
the rest of the slice. -/
def begins_with_u32len (b : Bytes) : Bool :=
  match b with
  | b0 :: b1 :: b2 :: b3 :: rest => leToNat [b0, b1, b2, b3] == rest.length
  | _ => false

/-- The op used to exhibit the C2 divergence: append the byte 120 to the
entry of the string/string map at key 107. -/
def c2op : microop :=
  { attr := 1, action := .OP_STRING_APPEND,
    arg1 := [120], arg1_datatype := .HYPERDATATYPE_STRING,
    arg2 := [107], arg2_datatype := .HYPERDATATYPE_STRING }

/-- C2, evaluation at the failing input: starting from an empty
string/string map, a STRING_APPEND micro-op is routed by the source's
APPLY_MAP macro through plain apply_string (the macro ignores its
WRAP_PREFIX argument), so the value slice stored back into the map is
the raw string [120], which does not begin with its u32 little-endian
length prefix; routing through wrap_apply_string — which the comment
above it says is needed for values inside a map — would have stored
[1, 0, 0, 0, 120], which does. -/
theorem claim_C2_code_divergence :
    apply_map_entries_string_string [] [c2op] = .ok [([107], [120])] ∧
    begins_with_u32len [120] = false ∧
    wrap_apply_string [] [c2op] = .ok [1, 0, 0, 0, 120] ∧
    begins_with_u32len [1, 0, 0, 0, 120] = true := by
  refine ⟨?_, ?_, ?_, ?_⟩ <;> rfl

theorem leToNat_lt (b : Bytes) (h : ByteOk b) : leToNat b < 256 ^ b.length := by
  induction b with
  | nil => simp [leToNat]
  | cons x xs ih =>
    have hx : x < 256 := h x (List.mem_cons_self x xs)
    have ihh := ih (fun y hy => h y (List.mem_cons_of_mem _ hy))
    have step : leToNat (x :: xs) = x + 256 * leToNat xs := rfl
    have h1 : x + 256 * leToNat xs < 256 * (leToNat xs + 1) := by omega
    have h2 : 256 * (leToNat xs + 1) ≤ 256 * 256 ^ xs.length :=
      Nat.mul_le_mul_left _ ihh
    have h3 : (256 : Nat) * 256 ^ xs.length = 256 ^ (x :: xs).length := by
      rw [List.length_cons, pow_succ, mul_comm]
    rw [step]
    omega

theorem natLE_ByteOk (w n : Nat) : ByteOk (natLE w n) := by
  induction w generalizing n with
  | zero => intro x hx; cases hx
  | succ w ih =>
    intro x hx
    rcases List.mem_cons.mp hx with h | h
    · subst h; exact Nat.mod_lt _ (by omega)
    · exact ih (n / 256) x h

theorem compare_string_trans :
    ∀ a b c : Bytes, compare_string a b = true → compare_string b c = true →
      compare_string a c = true := by
  intro a
  induction a with
  | nil =>
    intro b c hab hbc
    cases b with
    | nil => exact absurd hab (by simp [compare_string])
    | cons y ys =>
      cases c with
      | nil => exact absurd hbc (by simp [compare_string])
      | cons z zs => rfl
  | cons x xs ih =>
    intro b c hab hbc
    cases b with
    | nil => exact absurd hab (by simp [compare_string])
    | cons y ys =>
      cases c with
      | nil => exact absurd hbc (by simp [compare_string])
      | cons z zs =>
        simp only [compare_string] at hab hbc ⊢
        by_cases hxy : x < y
        · by_cases hyz : y < z
          · rw [if_pos (lt_trans hxy hyz)]
          · rw [if_neg hyz] at hbc
            by_cases hzy : z < y
            · rw [if_pos hzy] at hbc; cases hbc
            · have : y = z := by omega
              subst this
              rw [if_pos hxy]
        · rw [if_neg hxy] at hab
          by_cases hyx : y < x
          · rw [if_pos hyx] at hab; cases hab
          · rw [if_neg hyx] at hab
            have hxyeq : x = y := by omega
            subst hxyeq
            by_cases hxz : x < z
            · rw [if_pos hxz]
            · rw [if_neg hxz] at hbc ⊢
              by_cases hzx : z < x
              · rw [if_pos hzx] at hbc; cases hbc
              · rw [if_neg hzx] at hbc ⊢
                exact ih ys zs hab hbc

theorem compare_string_total :
    ∀ a b : Bytes, a ≠ b → compare_string a b = true ∨ compare_string b a = true := by
  intro a
  induction a with
  | nil =>
    intro b hne
    cases b with
    | nil => exact absurd rfl hne
    | cons y ys => left; rfl
  | cons x xs ih =>
    intro b hne
    cases b with
    | nil => right; rfl
    | cons y ys =>
      by_cases hxy : x < y
      · left; simp [compare_string, hxy]
      · by_cases hyx : y < x
        · right; simp [compare_string, hyx]
        · have hxyeq : x = y := by omega
          subst hxyeq
          have htl : xs ≠ ys := fun h => hne (by rw [h])
          rcases ih ys htl with h | h
          · left; simp [compare_string, lt_irrefl, h]
          · right; simp [compare_string, lt_irrefl, h]

/-- All entries of the in-memory map satisfy the key and value
predicates. -/
def EntriesOk (okK okV : Bytes → Prop) (es : List (Bytes × Bytes)) : Prop :=
  ∀ p ∈ es, okK p.1 ∧ okV p.2

/-- The keys of the in-memory map are distinct (std::map keys are
unique). -/
def KeysNodup (es : List (Bytes × Bytes)) : Prop :=
  (es.map Prod.fst).Nodup

theorem map_insert_keep_entriesOk (okK okV : Bytes → Prop) (k v : Bytes)
    (es : List (Bytes × Bytes)) (h : EntriesOk okK okV es) (hk : okK k) (hv : okV v) :
    EntriesOk okK okV (map_insert_keep k v es) := by
  unfold map_insert_keep
  split
  · exact h
  · intro p hp
    rcases List.mem_append.mp hp with hmem | hmem
    · exact h p hmem
    · rcases List.mem_singleton.mp hmem with rfl
      exact ⟨hk, hv⟩

theorem map_insert_keep_nodup (k v : Bytes) (es : List (Bytes × Bytes))
    (h : KeysNodup es) : KeysNodup (map_insert_keep k v es) := by
  unfold map_insert_keep
  split
  · exact h
  · rename_i hany
    have hnk : k ∉ es.map Prod.fst := by
      intro hmem
      rcases List.mem_map.mp hmem with ⟨p, hp, hpk⟩
      have : es.any (fun p => p.1 == k) = true :=
        List.any_eq_true.mpr ⟨p, hp, by simp [hpk]⟩
      simp [this] at hany
    unfold KeysNodup
    rw [List.map_append]
    simp only [List.map_cons, List.map_nil]
    exact List.Nodup.append h (List.nodup_singleton k)
      (by intro x hx hx2; rcases List.mem_singleton.mp hx2 with rfl; exact hnk hx)

theorem map_assign_entriesOk (okK okV : Bytes → Prop) (k v : Bytes) :
    ∀ es : List (Bytes × Bytes), EntriesOk okK okV es → okK k → okV v →
      EntriesOk okK okV (map_assign k v es) := by
  intro es
  induction es with
  | nil =>
    intro _ hk hv p hp
    rcases List.mem_singleton.mp hp with rfl
    exact ⟨hk, hv⟩
  | cons q es ih =>
    intro h hk hv p hp
    unfold map_assign at hp
    split at hp
    · rcases List.mem_cons.mp hp with rfl | hmem
      · exact ⟨hk, hv⟩
      · exact h p (List.mem_cons_of_mem _ hmem)
    · rcases List.mem_cons.mp hp with rfl | hmem
      · exact h p (List.mem_cons_self _ _)
      · exact ih (fun r hr => h r (List.mem_cons_of_mem _ hr)) hk hv p hmem

theorem map_assign_keys_subset (k v x : Bytes) :
    ∀ es : List (Bytes × Bytes), x ∈ (map_assign k v es).map Prod.fst →
      x ∈ es.map Prod.fst ∨ x = k := by
  intro es
  induction es with
  | nil =>
    intro hx
    simp only [map_assign, List.map_cons, List.map_nil] at hx
    rcases List.mem_singleton.mp hx with rfl
    right; rfl
  | cons q es ih =>
    intro hx
    unfold map_assign at hx
    split at hx
    · simp only [List.map_cons] at hx
      rcases List.mem_cons.mp hx with rfl | hmem
      · right; rfl
      · left; exact List.mem_cons_of_mem _ hmem
    · simp only [List.map_cons] at hx
      rcases List.mem_cons.mp hx with rfl | hmem
      · left; exact List.mem_cons_self _ _
      · rcases ih hmem with h | h
        · left; exact List.mem_cons_of_mem _ h
        · right; exact h

theorem map_assign_nodup (k v : Bytes) :
    ∀ es : List (Bytes × Bytes), KeysNodup es → KeysNodup (map_assign k v es) := by
  intro es
  induction es with
  | nil => intro _; simp [map_assign, KeysNodup]
  | cons q es ih =>
    intro h
    unfold KeysNodup at h
    simp only [List.map_cons] at h
    have hhead := (List.nodup_cons.mp h).1
    have htail := (List.nodup_cons.mp h).2
    unfold map_assign
    split
    · rename_i hbeq
      have hqk : q.1 = k := by simpa using hbeq
      unfold KeysNodup
      simp only [List.map_cons]
      exact List.nodup_cons.mpr ⟨by rw [← hqk]; exact hhead, htail⟩
    · rename_i hbeq
      have hqk : q.1 ≠ k := by simpa using hbeq
      unfold KeysNodup
      simp only [List.map_cons]
      refine List.nodup_cons.mpr ⟨?_, ih htail⟩
      intro hmem
      rcases map_assign_keys_subset k v q.1 es hmem with hh | hh
      · exact hhead hh
      · exact hqk hh

theorem map_erase_entriesOk (okK okV : Bytes → Prop) (k : Bytes) :
    ∀ es : List (Bytes × Bytes), EntriesOk okK okV es →
      EntriesOk okK okV (map_erase k es) := by
  intro es
  induction es with
  | nil => intro h; exact h
  | cons q es ih =>
    intro h p hp
    unfold map_erase at hp
    split at hp
    · exact h p (List.mem_cons_of_mem _ hp)
    · rcases List.mem_cons.mp hp with rfl | hmem
      · exact h p (List.mem_cons_self _ _)
      · exact ih (fun r hr => h r (List.mem_cons_of_mem _ hr)) p hmem

theorem map_erase_keys_subset (k x : Bytes) :
    ∀ es : List (Bytes × Bytes), x ∈ (map_erase k es).map Prod.fst →
      x ∈ es.map Prod.fst := by
  intro es
  induction es with
  | nil => intro hx; exact hx
  | cons q es ih =>
    intro hx
    unfold map_erase at hx
    split at hx
    · exact List.mem_cons_of_mem _ hx
    · simp only [List.map_cons] at hx
      rcases List.mem_cons.mp hx with rfl | hmem
      · exact List.mem_cons_self _ _
      · exact List.mem_cons_of_mem _ (ih hmem)

theorem map_erase_nodup (k : Bytes) :
    ∀ es : List (Bytes × Bytes), KeysNodup es → KeysNodup (map_erase k es) := by
  intro es
  induction es with
  | nil => intro h; exact h
  | cons q es ih =>
    intro h
    unfold KeysNodup at h
    simp only [List.map_cons] at h
    have hhead := (List.nodup_cons.mp h).1
    have htail := (List.nodup_cons.mp h).2
    unfold map_erase
    split
    · exact htail
    · unfold KeysNodup
      simp only [List.map_cons]
      refine List.nodup_cons.mpr ⟨?_, ih htail⟩
      intro hmem
      exact hhead (map_erase_keys_subset k q.1 es hmem)

theorem map_find_getD_ok (okK okV : Bytes → Prop) (k : Bytes)
    (es : List (Bytes × Bytes)) (h : EntriesOk okK okV es) :
    (map_find k es).getD [] = [] ∨ okV ((map_find k es).getD []) := by
  unfold map_find
  match hfind : es.find? (fun p => p.1 == k) with
  | none => left; rw [hfind]; rfl
  | some p =>
    right
    have hmem := List.mem_of_find?_eq_some hfind
    rw [hfind]
    exact (h p hmem).2

theorem m_insert_mem (cmpP : (Bytes × Bytes) → (Bytes × Bytes) → Bool)
    (x : Bytes × Bytes) :
    ∀ (l : List (Bytes × Bytes)) (y : Bytes × Bytes),
      y ∈ m_insert cmpP x l ↔ y = x ∨ y ∈ l := by
  intro l
  induction l with
  | nil =>
    intro y
    simp [m_insert]
  | cons z l ih =>
    intro y
    unfold m_insert
    split
    · constructor
      · intro hy
        rcases List.mem_cons.mp hy with rfl | hy2
        · left; rfl
        · right; exact hy2
      · intro hy
        rcases hy with rfl | hy2
        · exact List.mem_cons_self _ _
        · exact List.mem_cons_of_mem _ hy2
    · constructor
      · intro hy
        rcases List.mem_cons.mp hy with rfl | hy2
        · right; exact List.mem_cons_self _ _
        · rcases (ih y).mp hy2 with h | h
          · left; exact h
          · right; exact List.mem_cons_of_mem _ h
      · intro hy
        rcases hy with rfl | hy2
        · exact List.mem_cons_of_mem _ ((ih y).mpr (Or.inl rfl))
        · rcases List.mem_cons.mp hy2 with rfl | h
          · exact List.mem_cons_self _ _
          · exact List.mem_cons_of_mem _ ((ih y).mpr (Or.inr h))

theorem m_sort_mem (cmpP : (Bytes × Bytes) → (Bytes × Bytes) → Bool) :
    ∀ (l : List (Bytes × Bytes)) (y : Bytes × Bytes),
      y ∈ m_sort cmpP l ↔ y ∈ l := by
  intro l
  induction l with
  | nil => intro y; simp [m_sort]
  | cons x l ih =>
    intro y
    unfold m_sort
    rw [m_insert_mem, ih]
    constructor
    · intro h
      rcases h with rfl | h
      · exact List.mem_cons_self _ _
      · exact List.mem_cons_of_mem _ h
    · intro h
      rcases List.mem_cons.mp h with rfl | h
      · left; rfl
      · right; exact h

theorem m_insert_pairwise (cmpP : (Bytes × Bytes) → (Bytes × Bytes) → Bool)
    (htrans : ∀ a b c, cmpP a b = true → cmpP b c = true → cmpP a c = true)
    (x : Bytes × Bytes) :
    ∀ l : List (Bytes × Bytes),
      List.Pairwise (fun a b => cmpP a b = true) l →
      (∀ y ∈ l, cmpP x y = true ∨ cmpP y x = true) →
      List.Pairwise (fun a b => cmpP a b = true) (m_insert cmpP x l) := by
  intro l
  induction l with
  | nil =>
    intro _ _
    simp [m_insert]
  | cons y l ih =>
    intro hp htot
    have hy := List.pairwise_cons.mp hp
    unfold m_insert
    split
    · rename_i hxy
      refine List.pairwise_cons.mpr ⟨?_, hp⟩
      intro z hz
      rcases List.mem_cons.mp hz with rfl | hz2
      · exact hxy
      · exact htrans x y z hxy (hy.1 z hz2)
    · rename_i hxy
      have hyx : cmpP y x = true := by
        rcases htot y (List.mem_cons_self _ _) with h | h
        · exact absurd h hxy
        · exact h
      refine List.pairwise_cons.mpr ⟨?_, ?_⟩
      · intro z hz
        rcases (m_insert_mem cmpP x l z).mp hz with rfl | hz2
        · exact hyx
        · exact hy.1 z hz2
      · exact ih hy.2 (fun z hz => htot z (List.mem_cons_of_mem _ hz))

theorem m_sort_pairwise (cmpP : (Bytes × Bytes) → (Bytes × Bytes) → Bool)
    (htrans : ∀ a b c, cmpP a b = true → cmpP b c = true → cmpP a c = true) :
    ∀ l : List (Bytes × Bytes), l.Nodup →
      (∀ a ∈ l, ∀ b ∈ l, a ≠ b → cmpP a b = true ∨ cmpP b a = true) →
      List.Pairwise (fun a b => cmpP a b = true) (m_sort cmpP l) := by
  intro l
  induction l with
  | nil => intro _ _; simp [m_sort]
  | cons x l ih =>
    intro hnd htot
    have hx := (List.nodup_cons.mp hnd).1
    have hl := (List.nodup_cons.mp hnd).2
    unfold m_sort
    refine m_insert_pairwise cmpP htrans x (m_sort cmpP l) ?_ ?_
    · exact ih hl (fun a ha b hb hab =>
        htot a (List.mem_cons_of_mem _ ha) b (List.mem_cons_of_mem _ hb) hab)
    · intro y hy
      have hyl : y ∈ l := (m_sort_mem cmpP l y).mp hy
      have hxy : x ≠ y := fun h => hx (h ▸ hyl)
      exact htot x (List.mem_cons_self _ _) y (List.mem_cons_of_mem _ hyl) hxy

theorem chainOk_of_pairwise (cmp : Bytes → Bytes → Bool) :
    ∀ ks : List Bytes, List.Pairwise (fun a b => cmp a b = true) ks →
      ∀ (has_old : Bool) (old : Bytes),
        (has_old = true → ∀ k ∈ ks, cmp old k = true) →
        chainOk cmp has_old old ks := by
  intro ks
  induction ks with
  | nil => intro _ has_old old _; trivial
  | cons k ks ih =>
    intro hp has_old old hold
    have hk := List.pairwise_cons.mp hp
    exact ⟨fun h => hold h k (List.mem_cons_self _ _),
      ih hk.2 true k (fun _ k2 hk2 => hk.1 k2 hk2)⟩

theorem map_emit_parses (stepK stepV : StepFn) (writeK writeV : Bytes → Bytes)
    (okK okV : Bytes → Prop)
    (hwK : ∀ e rest, okK e → stepK (writeK e ++ rest) = some (e, rest))
    (hwV : ∀ e rest, okV e → stepV (writeV e ++ rest) = some (e, rest)) :
    ∀ es : List (Bytes × Bytes), EntriesOk okK okV es →
      PairsParse stepK stepV (map_emit writeK writeV es) es := by
  intro es
  induction es with
  | nil => intro _; exact PairsParse.nil
  | cons p es ih =>
    intro h
    obtain ⟨k, v⟩ := p
    have hok := h (k, v) (List.mem_cons_self _ _)
    have hemit : map_emit writeK writeV ((k, v) :: es) =
        writeK k ++ (writeV v ++ map_emit writeK writeV es) := by
      simp [map_emit]
    rw [hemit]
    exact PairsParse.cons (hwK k _ hok.1) (hwV v _ hok.2)
      (ih fun r hr => h r (List.mem_cons_of_mem _ hr))

theorem decode_map_go_inv (stepK stepV : StepFn) (okK okV : Bytes → Prop)
    (hKok : ∀ b e r, ByteOk b → stepK b = some (e, r) → okK e ∧ ByteOk r)
    (hVok : ∀ b e r, ByteOk b → stepV b = some (e, r) → okV e ∧ ByteOk r) :
    ∀ (fuel : Nat) (bytes : Bytes) (es out : List (Bytes × Bytes)),
      ByteOk bytes → EntriesOk okK okV es → KeysNodup es →
      decode_map_go stepK stepV fuel es bytes = .ok out →
      EntriesOk okK okV out ∧ KeysNodup out := by
  intro fuel
  induction fuel with
  | zero =>
    intro bytes es out _ _ _ h
    exact absurd h (by simp [decode_map_go])
  | succ fuel ih =>
    intro bytes es out hb hes hnd h
    unfold decode_map_go at h
    split at h
    · cases h; exact ⟨hes, hnd⟩
    · split at h
      · exact absurd h (by simp)
      · rename_i k r1 hsk
        split at h
        · exact absurd h (by simp)
        · rename_i v r2 hsv
          obtain ⟨hk, hbr1⟩ := hKok bytes k r1 hb hsk
          obtain ⟨hv, hbr2⟩ := hVok r1 v r2 hbr1 hsv
          exact ih r2 _ out hbr2
            (map_insert_keep_entriesOk okK okV k v es hes hk hv)
            (map_insert_keep_nodup k v es hnd) h

/-- Well-formedness of a micro-op's arguments: both argument slices hold
genuine bytes and admit a u32 size (true of anything that arrived on the
wire, where arguments carry u32 lengths). -/
def OpArgsOk (op : microop) : Prop :=
  ByteOk op.arg1 ∧ ByteOk op.arg2 ∧ op.arg1.length < 2 ^ 32 ∧ op.arg2.length < 2 ^ 32

/-- The laws a step/validate/compare/write/apply instantiation of the map
engine satisfies; they hold for the element functions the engine is
instantiated with (witnessed below for the string/int64 instance). -/
structure MapCodecLaws (stepK stepV : StepFn) (validateK validateV : Bytes → Bool)
    (cmp : Bytes → Bytes → Bool) (writeK writeV : Bytes → Bytes)
    (apply_pod : Bytes → List microop → Except microerror Bytes)
    (okK okV : Bytes → Prop) : Prop where
  progK : Prog stepK
  progV : Prog stepV
  stepK_ok : ∀ b e r, ByteOk b → stepK b = some (e, r) → okK e ∧ ByteOk r
  stepV_ok : ∀ b e r, ByteOk b → stepV b = some (e, r) → okV e ∧ ByteOk r
  writeK_rt : ∀ e rest, okK e → stepK (writeK e ++ rest) = some (e, rest)
  writeV_rt : ∀ e rest, okV e → stepV (writeV e ++ rest) = some (e, rest)
  validK_ok : ∀ e, validateK e = true → ByteOk e → e.length < 2 ^ 32 → okK e
  validV_ok : ∀ e, validateV e = true → ByteOk e → e.length < 2 ^ 32 → okV e
  apply_ok : ∀ old op out, (old = [] ∨ okV old) → ByteOk op.arg1 →
    apply_pod old [op] = .ok out → okV out
  cmp_trans : ∀ a b c, cmp a b = true → cmp b c = true → cmp a c = true
  cmp_total : ∀ a b, okK a → okK b → a ≠ b → cmp a b = true ∨ cmp b a = true

theorem apply_map_one_op_inv (stepK stepV : StepFn) (validateK validateV : Bytes → Bool)
    (cmp : Bytes → Bytes → Bool) (writeK writeV : Bytes → Bytes)
    (apply_pod : Bytes → List microop → Except microerror Bytes)
    (okK okV : Bytes → Prop)
    (laws : MapCodecLaws stepK stepV validateK validateV cmp writeK writeV apply_pod okK okV)
    (container keyt valt : hyperdatatype) (op : microop)
    (es out : List (Bytes × Bytes))
    (hop : OpArgsOk op) (hes : EntriesOk okK okV es) (hnd : KeysNodup es)
    (h : apply_map_one_op stepK stepV validateK validateV apply_pod
        container keyt valt op es = .ok out) :
    EntriesOk okK okV out ∧ KeysNodup out := by
  obtain ⟨hb1, hb2, hl1, hl2⟩ := hop
  have hscalar :
      (if keyt ≠ op.arg2_datatype then
          (Except.error microerror.MICROERR_WRONGTYPE :
            Except microerror (List (Bytes × Bytes)))
        else if !validateK op.arg2 then Except.error microerror.MICROERR_MALFORMED
        else apply_map_microop apply_pod es op) = Except.ok out →
      EntriesOk okK okV out ∧ KeysNodup out := by
    intro hsc
    split at hsc
    · exact absurd hsc (by simp)
    · split at hsc
      · exact absurd hsc (by simp)
      · rename_i hk_t hk_val
        have hvalk : validateK op.arg2 = true := by
          simpa using hk_val
        have hokk := laws.validK_ok op.arg2 hvalk hb2 hl2
        unfold apply_map_microop at hsc
        split at hsc
        · rename_i out2 hpod
          cases hsc
          have hold := map_find_getD_ok okK okV op.arg2 es hes
          have hokv := laws.apply_ok _ op out2 hold hb1 hpod
          exact ⟨map_assign_entriesOk okK okV op.arg2 out2 es hes hokk hokv,
            map_assign_nodup op.arg2 out2 es hnd⟩
        · exact absurd hsc (by simp)
  unfold apply_map_one_op at h
  split at h
  · -- OP_SET
    split at h
    · cases h
      exact ⟨fun p hp => absurd hp (List.not_mem_nil p), List.nodup_nil⟩
    · split at h
      · exact absurd h (by simp)
      · split at h
        · exact absurd h (by simp)
        · exact decode_map_go_inv stepK stepV okK okV laws.stepK_ok laws.stepV_ok
            _ op.arg1 [] out hb1 (fun p hp => absurd hp (List.not_mem_nil p))
            List.nodup_nil h
  · -- OP_MAP_ADD
    split at h
    · exact absurd h (by simp)
    · split at h
      · exact absurd h (by simp)
      · split at h
        · exact absurd h (by simp)
        · split at h
          · exact absurd h (by simp)
          · rename_i hk_t hk_val hv_t hv_val
            cases h
            have hvalk : validateK op.arg2 = true := by
              simpa using hk_val
            have hvalv : validateV op.arg1 = true := by
              simpa using hv_val
            have hokk := laws.validK_ok op.arg2 hvalk hb2 hl2
            have hokv := laws.validV_ok op.arg1 hvalv hb1 hl1
            exact ⟨map_assign_entriesOk okK okV op.arg2 op.arg1 es hes hokk hokv,
              map_assign_nodup op.arg2 op.arg1 es hnd⟩
  · -- OP_MAP_REMOVE
    split at h
    · exact absurd h (by simp)
    · split at h
      · exact absurd h (by simp)
      · cases h
        exact ⟨map_erase_entriesOk okK okV op.arg2 es hes,
          map_erase_nodup op.arg2 es hnd⟩
  -- the ten scalar actions produce the shape handled by hscalar; the
  -- final arm is an error and cannot return ok
  all_goals first
    | exact hscalar h
    | exact absurd h (by simp)

theorem apply_map_ops_inv (stepK stepV : StepFn) (validateK validateV : Bytes → Bool)
    (cmp : Bytes → Bytes → Bool) (writeK writeV : Bytes → Bytes)
    (apply_pod : Bytes → List microop → Except microerror Bytes)
    (okK okV : Bytes → Prop)
    (laws : MapCodecLaws stepK stepV validateK validateV cmp writeK writeV apply_pod okK okV)
    (container keyt valt : hyperdatatype) :
    ∀ (ops : List microop) (es out : List (Bytes × Bytes)),
      (∀ op ∈ ops, OpArgsOk op) → EntriesOk okK okV es → KeysNodup es →
      apply_map_ops stepK stepV validateK validateV apply_pod
        container keyt valt ops es = .ok out →
      EntriesOk okK okV out ∧ KeysNodup out := by
  intro ops
  induction ops with
  | nil =>
    intro es out _ hes hnd h
    cases h
    exact ⟨hes, hnd⟩
  | cons op ops ih =>
    intro es out hops hes hnd h
    unfold apply_map_ops at h
    split at h
    · exact absurd h (by simp)
    · rename_i es2 hone
      obtain ⟨hes2, hnd2⟩ := apply_map_one_op_inv stepK stepV validateK validateV
        cmp writeK writeV apply_pod okK okV laws container keyt valt op es es2
        (hops op (List.mem_cons_self _ _)) hes hnd hone
      exact ih es2 out (fun o ho => hops o (List.mem_cons_of_mem _ ho)) hes2 hnd2 h

/-- C8: for every successful run of apply_map over element functions
satisfying the codec laws (and micro-ops whose argument slices are
well-formed wire arguments), the emitted byte string parses as a list of
key/value pairs strictly sorted by the key comparator, and it is
accepted by the corresponding validate_map instantiation; in particular
the re-encoding of the decoded form of any input that validates
validates again (the run with an empty op list). -/
theorem claim_C8_apply_map_sorted_valid (stepK stepV : StepFn)
    (validateK validateV : Bytes → Bool) (cmp : Bytes → Bytes → Bool)
    (writeK writeV : Bytes → Bytes)
    (apply_pod : Bytes → List microop → Except microerror Bytes)
    (okK okV : Bytes → Prop)
    (laws : MapCodecLaws stepK stepV validateK validateV cmp writeK writeV apply_pod okK okV)
    (container keyt valt : hyperdatatype)
    (old_value : Bytes) (ops : List microop) (out : Bytes)
    (hbytes : ByteOk old_value) (hops : ∀ op ∈ ops, OpArgsOk op)
    (hrun : apply_map stepK stepV validateK validateV cmp writeK writeV apply_pod
      container keyt valt old_value ops = .ok out) :
    ∃ es, PairsParse stepK stepV out es ∧
      List.Pairwise (fun a b => cmp a.1 b.1 = true) es ∧
      validate_map stepK stepV cmp out = true := by
  unfold apply_map at hrun
  split at hrun
  · exact absurd hrun (by simp)
  · rename_i es hentries
    cases hrun
    unfold apply_map_entries at hentries
    split at hentries
    · exact absurd hentries (by simp)
    · rename_i es0 hdec
      obtain ⟨hes0, hnd0⟩ := decode_map_go_inv stepK stepV okK okV
        laws.stepK_ok laws.stepV_ok _ old_value [] es0 hbytes
        (fun p hp => absurd hp (List.not_mem_nil p)) List.nodup_nil hdec
      obtain ⟨hes, hnd⟩ := apply_map_ops_inv stepK stepV validateK validateV
        cmp writeK writeV apply_pod okK okV laws container keyt valt
        ops es0 es hops hes0 hnd0 hentries
      have hessorted : EntriesOk okK okV (m_sort (cmp_pair_first cmp) es) :=
        fun p hp => hes p ((m_sort_mem _ es p).mp hp)
      have hpairp : List.Pairwise (fun a b => cmp_pair_first cmp a b = true)
          (m_sort (cmp_pair_first cmp) es) := by
        apply m_sort_pairwise
        · intro a b c hab hbc
          exact laws.cmp_trans a.1 b.1 c.1 hab hbc
        · exact List.Nodup.of_map _ hnd
        · intro a ha b hb hab
          have hkne : a.1 ≠ b.1 := by
            intro hk
            exact hab (List.inj_on_of_nodup_map hnd ha hb hk)
          exact laws.cmp_total a.1 b.1 (hes a ha).1 (hes b hb).1 hkne
      have hparse : PairsParse stepK stepV
          (map_emit writeK writeV (m_sort (cmp_pair_first cmp) es))
          (m_sort (cmp_pair_first cmp) es) :=
        map_emit_parses stepK stepV writeK writeV okK okV
          laws.writeK_rt laws.writeV_rt _ hessorted
      have hchain : chainOk cmp false []
          ((m_sort (cmp_pair_first cmp) es).map Prod.fst) := by
        apply chainOk_of_pairwise
        · exact hpairp.map Prod.fst (fun a b h => h)
        · intro h
          cases h
      exact ⟨m_sort (cmp_pair_first cmp) es, hparse, hpairp,
        (validate_map_iff stepK stepV cmp laws.progK laws.progV _).mpr
          ⟨m_sort (cmp_pair_first cmp) es, hparse, hchain⟩⟩

/-- Well-formedness of a string element held in the map: genuine bytes
that admit a u32 length. -/
def okK_string (e : Bytes) : Prop := e.length < 2 ^ 32 ∧ ByteOk e

/-- Well-formedness of an int64 element held in the map: exactly eight
genuine bytes. -/
def okV_int64 (e : Bytes) : Prop := e.length = 8 ∧ ByteOk e

theorem step_string_ok (b e r : Bytes) (hb : ByteOk b)
    (h : step_string b = some (e, r)) : okK_string e ∧ ByteOk r := by
  match b with
  | [] => exact absurd h (by simp [step_string])
  | [b0] => exact absurd h (by simp [step_string])
  | [b0, b1] => exact absurd h (by simp [step_string])
  | [b0, b1, b2] => exact absurd h (by simp [step_string])
  | b0 :: b1 :: b2 :: b3 :: rest =>
    simp only [step_string] at h
    split at h
    · rename_i hle
      cases h
      have hbhead : ByteOk [b0, b1, b2, b3] := by
        intro x hx
        apply hb
        rcases List.mem_cons.mp hx with rfl | hx
        · exact List.mem_cons_self _ _
        rcases List.mem_cons.mp hx with rfl | hx
        · exact List.mem_cons_of_mem _ (List.mem_cons_self _ _)
        rcases List.mem_cons.mp hx with rfl | hx
        · exact List.mem_cons_of_mem _ (List.mem_cons_of_mem _ (List.mem_cons_self _ _))
        rcases List.mem_cons.mp hx with rfl | hx
        · exact List.mem_cons_of_mem _ (List.mem_cons_of_mem _
            (List.mem_cons_of_mem _ (List.mem_cons_self _ _)))
        · cases hx
      have hrest : ByteOk rest := by
        intro x hx
        exact hb x (by simp [hx])
      have hlt : leToNat [b0, b1, b2, b3] < 2 ^ 32 := by
        have := leToNat_lt [b0, b1, b2, b3] hbhead
        norm_num at this ⊢
        omega
      refine ⟨⟨?_, ?_⟩, ?_⟩
      · rw [List.length_take]
        omega
      · intro x hx
        exact hrest x (List.take_subset _ _ hx)
      · intro x hx
        exact hrest x (List.drop_subset _ _ hx)
    · cases h

theorem step_int64_ok (b e r : Bytes) (hb : ByteOk b)
    (h : step_int64 b = some (e, r)) : okV_int64 e ∧ ByteOk r := by
  simp only [step_int64] at h
  split at h
  · rename_i hle
    cases h
    refine ⟨⟨?_, ?_⟩, ?_⟩
    · rw [List.length_take]
      omega
    · intro x hx
      exact hb x (List.take_subset _ _ hx)
    · intro x hx
      exact hb x (List.drop_subset _ _ hx)
  · cases h

theorem write_string_rt (e rest : Bytes) (he : okK_string e) :
    step_string (write_string e ++ rest) = some (e, rest) := by
  obtain ⟨hlen, _⟩ := he
  have hshape : write_string e ++ rest =
      (e.length % 256) :: (e.length / 256 % 256) :: (e.length / 256 / 256 % 256) ::
        (e.length / 256 / 256 / 256 % 256) :: (e ++ rest) := by
    simp [write_string, pack32le, natLE]
  rw [hshape]
  simp only [step_string]
  have hval : leToNat [e.length % 256, e.length / 256 % 256, e.length / 256 / 256 % 256,
      e.length / 256 / 256 / 256 % 256] = e.length := by
    have h1 : [e.length % 256, e.length / 256 % 256, e.length / 256 / 256 % 256,
        e.length / 256 / 256 / 256 % 256] = natLE 4 e.length := by
      simp [natLE]
    rw [h1, leToNat_natLE]
    have : (256 : Nat) ^ 4 = 2 ^ 32 := by norm_num
    rw [this]
    exact Nat.mod_eq_of_lt hlen
  rw [hval]
  rw [if_pos (by simp)]
  rw [List.take_left' rfl, List.drop_left' rfl]

theorem write_int64_rt (e rest : Bytes) (he : okV_int64 e) :
    step_int64 (e ++ rest) = some (e, rest) := by
  obtain ⟨hlen, _⟩ := he
  simp only [write_int64, step_int64]
  rw [if_pos (by simp [hlen])]
  rw [← hlen, List.take_left' rfl, List.drop_left' rfl]

theorem apply_int64_arith_ok (f : Nat → Nat → Nat) (old arg out : Bytes)
    (h : apply_int64_arith f old arg = .ok out) : okV_int64 out := by
  unfold apply_int64_arith at h
  split at h
  · split at h
    · cases h
      exact ⟨natLE_length 8 _, natLE_ByteOk 8 _⟩
    · exact absurd h (by simp)
  · exact absurd h (by simp)

theorem apply_int64_one_ok (old : Bytes) (op : microop) (out : Bytes)
    (hb1 : ByteOk op.arg1)
    (h : apply_int64_one old op = .ok out) : okV_int64 out := by
  unfold apply_int64_one at h
  split at h
  · -- OP_SET
    split at h
    · rename_i hlen
      cases h
      exact ⟨hlen, hb1⟩
    · exact absurd h (by simp)
  all_goals first
    | exact apply_int64_arith_ok _ _ _ _ h
    | (split at h
       · exact absurd h (by simp)
       · exact apply_int64_arith_ok _ _ _ _ h)
    | exact absurd h (by simp)

theorem apply_int64_single_ok (old : Bytes) (op : microop) (out : Bytes)
    (hb1 : ByteOk op.arg1)
    (h : apply_int64 old [op] = .ok out) : okV_int64 out := by
  unfold apply_int64 at h
  split at h
  · rename_i next hone
    have hout : next = out := by
      simpa [apply_int64] using h
    exact hout ▸ apply_int64_one_ok old op next hb1 hone
  · exact absurd h (by simp)

/-- The codec laws hold for the string/int64 instantiation of the map
engine. -/
theorem map_codec_laws_string_int64 :
    MapCodecLaws step_string step_int64 validate_as_string validate_as_int64
      compare_string write_string write_int64 apply_int64 okK_string okV_int64 := by
  refine ⟨step_string_prog, step_int64_prog, step_string_ok, step_int64_ok,
    write_string_rt, ?_, ?_, ?_, ?_, compare_string_trans, ?_⟩
  · intro e rest he
    exact write_int64_rt e rest he
  · intro e _ hb hlen
    exact ⟨hlen, hb⟩
  · intro e hv hb _
    have : e.length = 8 := by
      simpa [validate_as_int64] using hv
    exact ⟨this, hb⟩
  · intro old op out _ hb1 hpod
    exact apply_int64_single_ok old op out hb1 hpod
  · intro a b _ _ hne
    exact compare_string_total a b hne

/-- The op used in the C8 witness: MAP_ADD of key 99 with value 3. -/
def c8op : microop :=
  { attr := 1, action := .OP_MAP_ADD,
    arg1 := [3, 0, 0, 0, 0, 0, 0, 0], arg1_datatype := .HYPERDATATYPE_INT64,
    arg2 := [99], arg2_datatype := .HYPERDATATYPE_STRING }

/-- Witness for C8: a concrete run of the string/int64 instantiation. -/
theorem claim_C8_witness :
    ∃ es, PairsParse step_string step_int64
        [1, 0, 0, 0, 98, 2, 0, 0, 0, 0, 0, 0, 0, 1, 0, 0, 0, 99, 3, 0, 0, 0, 0, 0, 0, 0] es ∧
      List.Pairwise (fun a b => compare_string a.1 b.1 = true) es ∧
      validate_map step_string step_int64 compare_string
        [1, 0, 0, 0, 98, 2, 0, 0, 0, 0, 0, 0, 0, 1, 0, 0, 0, 99, 3, 0, 0, 0, 0, 0, 0, 0] = true :=
  claim_C8_apply_map_sorted_valid step_string step_int64
    validate_as_string validate_as_int64 compare_string write_string write_int64
    apply_int64 okK_string okV_int64 map_codec_laws_string_int64
    .HYPERDATATYPE_MAP_STRING_INT64 .HYPERDATATYPE_STRING .HYPERDATATYPE_INT64
    [1, 0, 0, 0, 98, 2, 0, 0, 0, 0, 0, 0, 0] [c8op] _
    (by decide)
    (by
      intro op hop
      rcases List.mem_singleton.mp hop with rfl
      exact ⟨by decide, by decide, by decide, by decide⟩)
    rfl

/-- Modelled from the spec: numeric code of a micro-action (the enum
values live in a header that is not part of the sources; any injective
numbering below 256 models the u8 cast in the packer). -/
def microactionToNat : microaction → Nat
  | .OP_FAIL => 0
  | .OP_SET => 1
  | .OP_STRING_APPEND => 2
  | .OP_STRING_PREPEND => 3
  | .OP_NUM_ADD => 4
  | .OP_NUM_SUB => 5
  | .OP_NUM_MUL => 6
  | .OP_NUM_DIV => 7
  | .OP_NUM_MOD => 8
  | .OP_NUM_AND => 9
  | .OP_NUM_OR => 10
  | .OP_NUM_XOR => 11
  | .OP_LIST_LPUSH => 12
  | .OP_LIST_RPUSH => 13
  | .OP_SET_ADD => 14
  | .OP_SET_REMOVE => 15
  | .OP_SET_INTERSECT => 16
  | .OP_SET_UNION => 17
  | .OP_MAP_ADD => 18
  | .OP_MAP_REMOVE => 19

/-- Inverse of the micro-action numbering (the C cast keeps the raw
value; codes outside the enum map to OP_FAIL here, which only matters
for bytes that no packer produced). -/
def microactionOfNat : Nat → microaction
  | 1 => .OP_SET
  | 2 => .OP_STRING_APPEND
  | 3 => .OP_STRING_PREPEND
  | 4 => .OP_NUM_ADD
  | 5 => .OP_NUM_SUB
  | 6 => .OP_NUM_MUL
  | 7 => .OP_NUM_DIV
  | 8 => .OP_NUM_MOD
  | 9 => .OP_NUM_AND
  | 10 => .OP_NUM_OR
  | 11 => .OP_NUM_XOR
  | 12 => .OP_LIST_LPUSH
  | 13 => .OP_LIST_RPUSH
  | 14 => .OP_SET_ADD
  | 15 => .OP_SET_REMOVE
  | 16 => .OP_SET_INTERSECT
  | 17 => .OP_SET_UNION
  | 18 => .OP_MAP_ADD
  | 19 => .OP_MAP_REMOVE
  | _ => .OP_FAIL

/-- Modelled from the spec: numeric code of a datatype tag (u16 on the
wire). -/
def hyperdatatypeToNat : hyperdatatype → Nat
  | .HYPERDATATYPE_STRING => 0
  | .HYPERDATATYPE_INT64 => 1
  | .HYPERDATATYPE_FLOAT => 2
  | .HYPERDATATYPE_MAP_GENERIC => 3
  | .HYPERDATATYPE_MAP_STRING_STRING => 4
  | .HYPERDATATYPE_MAP_STRING_INT64 => 5
  | .HYPERDATATYPE_MAP_STRING_FLOAT => 6
  | .HYPERDATATYPE_MAP_INT64_STRING => 7
  | .HYPERDATATYPE_MAP_INT64_INT64 => 8
  | .HYPERDATATYPE_MAP_INT64_FLOAT => 9
  | .HYPERDATATYPE_MAP_FLOAT_STRING => 10
  | .HYPERDATATYPE_MAP_FLOAT_INT64 => 11
  | .HYPERDATATYPE_MAP_FLOAT_FLOAT => 12
  | .HYPERDATATYPE_GARBAGE => 13

/-- Inverse of the datatype numbering. -/
def hyperdatatypeOfNat : Nat → hyperdatatype
  | 1 => .HYPERDATATYPE_INT64
  | 2 => .HYPERDATATYPE_FLOAT
  | 3 => .HYPERDATATYPE_MAP_GENERIC
  | 4 => .HYPERDATATYPE_MAP_STRING_STRING
  | 5 => .HYPERDATATYPE_MAP_STRING_INT64
  | 6 => .HYPERDATATYPE_MAP_STRING_FLOAT
  | 7 => .HYPERDATATYPE_MAP_INT64_STRING
  | 8 => .HYPERDATATYPE_MAP_INT64_INT64
  | 9 => .HYPERDATATYPE_MAP_INT64_FLOAT
  | 10 => .HYPERDATATYPE_MAP_FLOAT_STRING
  | 11 => .HYPERDATATYPE_MAP_FLOAT_INT64
  | 12 => .HYPERDATATYPE_MAP_FLOAT_FLOAT
  | 13 => .HYPERDATATYPE_GARBAGE
  | _ => .HYPERDATATYPE_STRING

theorem microaction_code_rt (a : microaction) :
    microactionOfNat (microactionToNat a) = a := by
  cases a <;> rfl

theorem microaction_code_lt (a : microaction) : microactionToNat a < 256 := by
  cases a <;> decide

theorem hyperdatatype_code_rt (t : hyperdatatype) :
    hyperdatatypeOfNat (hyperdatatypeToNat t) = t := by
  cases t <;> rfl

theorem hyperdatatype_code_lt (t : hyperdatatype) : hyperdatatypeToNat t < 2 ^ 16 := by
  cases t <;> decide

/-- Modelled from the spec: the e::buffer packer writes a u16 in network
byte order (big-endian), truncating to 16 bits. -/
def pack16be (n : Nat) : Bytes := [n / 256 % 256, n % 256]

/-- Modelled from the spec: the e::buffer packer writes a u32 in network
byte order (big-endian), truncating to 32 bits. -/
def pack32be (n : Nat) : Bytes :=
  [n / 2 ^ 24 % 256, n / 2 ^ 16 % 256, n / 256 % 256, n % 256]

/-- Modelled from the spec: the e::buffer packer writes a slice as its
u32 length followed by its bytes. -/
def packSlice (b : Bytes) : Bytes := pack32be b.length ++ b

def unpack16be : Bytes → Option (Nat × Bytes)
  | b0 :: b1 :: r => some (b0 * 256 + b1, r)
  | _ => none

def unpack8 : Bytes → Option (Nat × Bytes)
  | b0 :: r => some (b0, r)
  | _ => none

def unpack32be : Bytes → Option (Nat × Bytes)
  | b0 :: b1 :: b2 :: b3 :: r => some (b0 * 2 ^ 24 + b1 * 2 ^ 16 + b2 * 256 + b3, r)
  | _ => none

def unpackSlice (b : Bytes) : Option (Bytes × Bytes) :=
  match unpack32be b with
  | none => none
  | some (n, r) => if n ≤ r.length then some (r.take n, r.drop n) else none

/-- datatypes/microop.cc, operator<<: attr as u16, action as u8, then
each argument as a slice followed by its u16 datatype tag. -/
def microop_pack (m : microop) : Bytes :=
  pack16be m.attr ++ [microactionToNat m.action % 256] ++
  packSlice m.arg1 ++ pack16be (hyperdatatypeToNat m.arg1_datatype) ++
  packSlice m.arg2 ++ pack16be (hyperdatatypeToNat m.arg2_datatype)

/-- datatypes/microop.cc, operator>>: the fields in the same order, with
the numeric action and datatype codes cast back to their enums. -/
def microop_unpack (b : Bytes) : Option (microop × Bytes) :=
  match unpack16be b with
  | none => none
  | some (attr, r1) =>
    match unpack8 r1 with
    | none => none
    | some (act, r2) =>
      match unpackSlice r2 with
      | none => none
      | some (arg1, r3) =>
        match unpack16be r3 with
        | none => none
        | some (dt1, r4) =>
          match unpackSlice r4 with
          | none => none
          | some (arg2, r5) =>
            match unpack16be r5 with
            | none => none
            | some (dt2, r6) =>
              some ({ attr := attr, action := microactionOfNat act,
                      arg1 := arg1, arg1_datatype := hyperdatatypeOfNat dt1,
                      arg2 := arg2, arg2_datatype := hyperdatatypeOfNat dt2 }, r6)

/-- datatypes/microop.cc, pack_size. -/
def pack_size (m : microop) : Nat :=
  2 + 1 + (4 + m.arg1.length + 2) + (4 + m.arg2.length + 2)

theorem unpack16be_pack16be (n : Nat) (rest : Bytes) (h : n < 2 ^ 16) :
    unpack16be (pack16be n ++ rest) = some (n, rest) := by
  have hshape : pack16be n ++ rest = (n / 256 % 256) :: (n % 256) :: rest := by
    simp [pack16be]
  rw [hshape]
  simp only [unpack16be]
  congr 1
  congr 1
  omega

theorem unpackSlice_packSlice (b rest : Bytes) (h : b.length < 2 ^ 32) :
    unpackSlice (packSlice b ++ rest) = some (b, rest) := by
  have hshape : packSlice b ++ rest =
      (b.length / 2 ^ 24 % 256) :: (b.length / 2 ^ 16 % 256) ::
        (b.length / 256 % 256) :: (b.length % 256) :: (b ++ rest) := by
    simp [packSlice, pack32be]
  rw [hshape]
  simp only [unpackSlice, unpack32be]
  have hval : b.length / 2 ^ 24 % 256 * 2 ^ 24 + b.length / 2 ^ 16 % 256 * 2 ^ 16 +
      b.length / 256 % 256 * 256 + b.length % 256 = b.length := by
    omega
  rw [hval]
  rw [if_pos (by simp)]
  rw [List.take_left' rfl, List.drop_left' rfl]

/-- C10: unpacking the bytes produced by packing a micro-op yields equal
fields, and the number of bytes written equals pack_size. -/
theorem claim_C10_microop_pack_roundtrip (m : microop)
    (hattr : m.attr < 2 ^ 16) (h1 : m.arg1.length < 2 ^ 32) (h2 : m.arg2.length < 2 ^ 32) :
    microop_unpack (microop_pack m) = some (m, []) ∧
    (microop_pack m).length = pack_size m := by
  constructor
  · have hact : microactionToNat m.action % 256 = microactionToNat m.action :=
      Nat.mod_eq_of_lt (microaction_code_lt m.action)
    have hshape : microop_pack m =
        pack16be m.attr ++ ((microactionToNat m.action % 256) ::
          (packSlice m.arg1 ++ (pack16be (hyperdatatypeToNat m.arg1_datatype) ++
            (packSlice m.arg2 ++ (pack16be (hyperdatatypeToNat m.arg2_datatype) ++ []))))) := by
      simp [microop_pack, List.append_assoc]
    rw [hshape]
    simp only [microop_unpack, unpack16be_pack16be _ _ hattr, unpack8,
      unpackSlice_packSlice _ _ h1,
      unpack16be_pack16be _ _ (hyperdatatype_code_lt m.arg1_datatype),
      unpackSlice_packSlice _ _ h2,
      unpack16be_pack16be _ _ (hyperdatatype_code_lt m.arg2_datatype),
      hact, microaction_code_rt, hyperdatatype_code_rt]
  · simp [microop_pack, pack_size, pack16be, packSlice, pack32be]
    omega

/-- Witness for C10 at a concrete micro-op. -/
theorem claim_C10_witness :
    microop_unpack (microop_pack c8op) = some (c8op, []) ∧
    (microop_pack c8op).length = pack_size c8op :=
  claim_C10_microop_pack_roundtrip c8op (by decide) (by decide) (by decide)

/-- hyperdex entityid: one replica on a chain (ids.h is not part of the
sources; the field named after the hash-prefix length is called pfx
here). -/
structure entityid where
  space : Nat
  subspace : Nat
  pfx : Nat
  mask : Nat
  number : Nat
deriving DecidableEq, Repr

/-- Modelled from the spec: the default-constructed entityid used as the
"none" marker; an empty client op is recognized by from.space ==
UINT32_MAX. -/
def entityid_none : entityid := ⟨UINT32_MAX, 0, 0, 0, 0⟩

/-- hyperdex regionid: a hash-prefix-defined shard of one subspace. -/
structure regionid where
  space : Nat
  subspace : Nat
  pfx : Nat
  mask : Nat
deriving DecidableEq, Repr

def entityid.get_region (e : entityid) : regionid :=
  ⟨e.space, e.subspace, e.pfx, e.mask⟩

/-- A hashed location: a number of fixed bits and a 64-bit point. -/
structure coordinate where
  bits : Nat
  point : Nat
deriving DecidableEq, Repr

/-- Modelled from the spec: region containment is a prefix test on the
top bits of the point. -/
def coordinate.contains (c other : coordinate) : Bool :=
  c.bits ≤ other.bits &&
    (c.point >>> (64 - c.bits) == other.point >>> (64 - c.bits))

def regionid.coord (r : regionid) : coordinate := ⟨r.pfx, r.mask⟩

/-- replication: the client op recorded on a pending op (the C field
from is named from_e here). -/
structure clientop where
  region : regionid
  from_e : entityid
  nonce : Nat
deriving DecidableEq, Repr

/-- The default-constructed clientop: no client waiting. -/
def clientop_none : clientop := ⟨⟨0, 0, 0, 0⟩, entityid_none, 0⟩

/-- replication_manager_pending.h (not in the sources): the pending op's
fields per the spec data model.  Backing buffers are not modelled; key
and value slices are held directly. -/
structure pending where
  has_value : Bool
  key : Bytes
  value : List Bytes
  co : clientop := clientop_none
  fresh : Bool := false
  subspace_prev : Nat := 0
  subspace_next : Nat := 0
  point_prev : Nat := 0
  point_this : Nat := 0
  point_next : Nat := 0
  point_next_next : Nat := 0
  recv_e : entityid := entityid_none
  recv_i : Nat := 0
  sent_e : entityid := entityid_none
  sent_i : Nat := 0
  acked : Bool := false
  retcode : Nat := 0
  ref : Nat := 0
deriving DecidableEq, Repr

/-- replication_manager_deferred.h (not in the sources): the deferred
op's fields per the spec data model. -/
structure deferredop where
  has_value : Bool
  key : Bytes
  value : List Bytes
  from_ent : entityid
  from_inst : Nat
  ref : Nat
deriving DecidableEq, Repr

/-- replication_manager_keyholder.h (not in the sources): the per-key
queues, each an ordered mapping from version to op, plus the version on
disk. -/
structure keyholder where
  deferred_q : List (Nat × deferredop) := []
  blocked_q : List (Nat × pending) := []
  committable_q : List (Nat × pending) := []
  version_on_disk_f : Nat := 0
deriving DecidableEq, Repr

def keyholder.has_deferred_ops (kh : keyholder) : Bool := !kh.deferred_q.isEmpty

def keyholder.has_blocked_ops (kh : keyholder) : Bool := !kh.blocked_q.isEmpty

def keyholder.has_committable_ops (kh : keyholder) : Bool := !kh.committable_q.isEmpty

def keyholder.oldest_deferred_version (kh : keyholder) : Nat :=
  (kh.deferred_q.head?.map Prod.fst).getD 0

def keyholder.oldest_deferred_op (kh : keyholder) : Option deferredop :=
  kh.deferred_q.head?.map Prod.snd

def keyholder.oldest_blocked_version (kh : keyholder) : Nat :=
  (kh.blocked_q.head?.map Prod.fst).getD 0

def keyholder.oldest_blocked_op (kh : keyholder) : Option pending :=
  kh.blocked_q.head?.map Prod.snd

def keyholder.most_recent_blocked_version (kh : keyholder) : Nat :=
  (kh.blocked_q.getLast?.map Prod.fst).getD 0

def keyholder.most_recent_blocked_op (kh : keyholder) : Option pending :=
  kh.blocked_q.getLast?.map Prod.snd

def keyholder.oldest_committable_version (kh : keyholder) : Nat :=
  (kh.committable_q.head?.map Prod.fst).getD 0

def keyholder.oldest_committable_op (kh : keyholder) : Option pending :=
  kh.committable_q.head?.map Prod.snd

def keyholder.most_recent_committable_version (kh : keyholder) : Nat :=
  (kh.committable_q.getLast?.map Prod.fst).getD 0

def keyholder.most_recent_committable_op (kh : keyholder) : Option pending :=
  kh.committable_q.getLast?.map Prod.snd

def keyholder.get_by_version (kh : keyholder) (v : Nat) : Option pending :=
  match kh.blocked_q.find? (fun p => p.1 == v) with
  | some p => some p.2
  | none =>
    match kh.committable_q.find? (fun p => p.1 == v) with
    | some p => some p.2
    | none => none

/-- Mutation of the op stored at a version (the C code mutates through
the intrusive pointer returned by get_by_version). -/
def keyholder.update_by_version (kh : keyholder) (v : Nat) (f : pending → pending) :
    keyholder :=
  { kh with
    blocked_q := kh.blocked_q.map (fun p => if p.1 == v then (p.1, f p.2) else p),
    committable_q := kh.committable_q.map (fun p => if p.1 == v then (p.1, f p.2) else p) }

def keyholder.append_blocked (kh : keyholder) (v : Nat) (op : pending) : keyholder :=
  { kh with blocked_q := kh.blocked_q ++ [(v, op)] }

def keyholder.transfer_blocked_to_committable (kh : keyholder) : keyholder :=
  match kh.blocked_q with
  | [] => kh
  | x :: r => { kh with blocked_q := r, committable_q := kh.committable_q ++ [x] }

def keyholder.remove_oldest_committable_op (kh : keyholder) : keyholder :=
  { kh with committable_q := kh.committable_q.tail }

def keyholder.remove_oldest_deferred_op (kh : keyholder) : keyholder :=
  { kh with deferred_q := kh.deferred_q.tail }

/-- Ordered insertion into the deferred queue; per the spec,
insert_deferred fails with DuplicateVersion on a present version, which
is modelled as leaving the queue unchanged. -/
def insert_deferred_list (v : Nat) (d : deferredop) :
    List (Nat × deferredop) → List (Nat × deferredop)
  | [] => [(v, d)]
  | x :: r =>
    if v < x.1 then (v, d) :: x :: r
    else if v = x.1 then x :: r
    else x :: insert_deferred_list v d r

def keyholder.insert_deferred (kh : keyholder) (v : Nat) (d : deferredop) : keyholder :=
  { kh with deferred_q := insert_deferred_list v d kh.deferred_q }

def keyholder.set_version_on_disk (kh : keyholder) (v : Nat) : keyholder :=
  { kh with version_on_disk_f := v }

def keyholder.empty (kh : keyholder) : Bool :=
  kh.deferred_q.isEmpty && kh.blocked_q.isEmpty && kh.committable_q.isEmpty

/-- The client-visible return codes. -/
inductive netcode where
  | NET_SUCCESS
  | NET_NOTFOUND
  | NET_BADDIMSPEC
  | NET_NOTUS
  | NET_CMPFAIL
  | NET_OVERFLOW
  | NET_READONLY
  | NET_SERVERERROR
deriving DecidableEq, Repr

/-- The externally observable actions of the replication manager:
messenger sends, client responses, state-transfer triggers and data
layer writes. -/
inductive effect where
  | respond (us client : entityid) (nonce : Nat) (msgtype : Nat) (ret : netcode)
  | chain_ack_msg (src dst : entityid) (version : Nat) (key : Bytes)
  | chain_put_msg (src dst : entityid) (version : Nat) (fresh : Bool)
      (key : Bytes) (value : List Bytes)
  | chain_del_msg (src dst : entityid) (version : Nat) (key : Bytes)
  | chain_subspace_msg (src dst : entityid) (version : Nat) (key : Bytes)
      (value : List Bytes) (point : Nat)
  | add_trigger (r : regionid) (key : Bytes) (version : Nat)
  | disk_del (r : regionid) (key : Bytes)
  | disk_put (r : regionid) (key : Bytes) (value : List Bytes) (version : Nat)
deriving DecidableEq, Repr

/-- The result of DataLayer::get. -/
inductive disk_get_result where
  | success (value : List Bytes) (version : Nat) (ref : Nat)
  | notfound
  | missingdisk
  | othererr
deriving DecidableEq, Repr

/-- The external collaborators of the replication manager (configuration
oracle, messenger availability), bundled as function parameters; the
spec lists these as consumed interfaces. -/
structure rm_config where
  quiesce_flag : Bool
  attrs_sz : Nat → Nat
  validate_key_attr : Nat → Bytes → Bool
  is_point_leader : entityid → Bool
  instancefor : entityid → Nat
  subspaces : Nat → Nat
  repl_hasher : Nat → Nat → Bytes → List Bytes → coordinate
  chain_adjacent : entityid → entityid → Bool
  is_tail : entityid → Bool
  is_head : entityid → Bool
  chain_next : entityid → entityid
  sloppy_lookup : entityid → entityid
  in_region : regionid → Bool
  entityfor : regionid → entityid
  comm_ok : entityid → entityid → Bool

/-- The data layer, as result oracles: get results, and return codes for
del and put (zero standing for SUCCESS). -/
structure rm_datalayer where
  get : regionid → Bytes → disk_get_result
  del_rc : regionid → Bytes → Nat
  put_rc : regionid → Bytes → List Bytes → Nat → Nat

/-- uint64 subtraction of one with wraparound (the C code computes
version - 1 on a uint64_t). -/
def u64_pred (v : Nat) : Nat := (v + (2 ^ 64 - 1)) % 2 ^ 64

/-- replication_manager.cc, from_disk: SUCCESS yields the stored value,
NOTFOUND yields version zero and no value, MISSINGDISK and the
unexpected codes fail. -/
def from_disk (d : rm_datalayer) (r : regionid) (key : Bytes) :
    Option (Bool × List Bytes × Nat × Nat) :=
  match d.get r key with
  | .success v ver ref => some (true, v, ver, ref)
  | .notfound => some (false, [], 0, 0)
  | .missingdisk => none
  | .othererr => none

/-- replication_manager.cc, retrieve_latest: the most recent blocked op,
else the most recent committable op, else the disk. -/
def retrieve_latest (d : rm_datalayer) (r : regionid) (key : Bytes) (kh : keyholder) :
    Option (Nat × Bool × List Bytes × Nat) :=
  match kh.blocked_q.getLast? with
  | some (v, op) => some (v, op.has_value, op.value, 0)
  | none =>
    match kh.committable_q.getLast? with
    | some (v, op) => some (v, op.has_value, op.value, 0)
    | none =>
      match from_disk d r key with
      | none => none
      | some (hv, val, ver, ref) => some (ver, hv, val, ref)

/-- replication_manager.cc, put_to_disk: below the version on disk it is
a no-op; a delete (or a cross-subspace transfer away from a non-zero
subspace) removes the object, otherwise the new value is stored; the
version on disk is recorded regardless of the outcome.  The C code
dereferences the looked-up op unconditionally, so a missing version is a
crash (none). -/
def put_to_disk (d : rm_datalayer) (pending_in : regionid) (kh : keyholder)
    (version : Nat) : Option (keyholder × List effect × Bool) :=
  if version ≤ kh.version_on_disk_f then some (kh, [], true)
  else
    match kh.get_by_version version with
    | none => none
    | some op =>
      if op.has_value = false ∨
          (pending_in.subspace = op.subspace_next ∧ pending_in.subspace ≠ 0) then
        some (kh.set_version_on_disk version, [effect.disk_del pending_in op.key],
          d.del_rc pending_in op.key = 0)
      else
        some (kh.set_version_on_disk version,
          [effect.disk_put pending_in op.key op.value version],
          d.put_rc pending_in op.key op.value version = 0)

/-- replication_manager.cc, prev_and_next, trailing blocks: point_prev
from the previous subspace's hash (preferring the new value when both
sides exist), and, when the cross-subspace case did not already set it,
point_next from the next subspace's hash (preferring the old value). -/
def prev_and_next_tail (cfg : rm_config) (r : regionid) (key : Bytes)
    (has_newvalue : Bool) (newvalue : List Bytes)
    (has_oldvalue : Bool) (oldvalue : List Bytes)
    (set_next : Bool) (p2 : pending) : pending :=
  let p3 :=
    if p2.subspace_prev ≠ UINT16_MAX then
      if has_oldvalue && has_newvalue then
        { p2 with point_prev := (cfg.repl_hasher r.space p2.subspace_prev key newvalue).point }
      else if has_oldvalue then
        { p2 with point_prev := (cfg.repl_hasher r.space p2.subspace_prev key oldvalue).point }
      else if has_newvalue then
        { p2 with point_prev := (cfg.repl_hasher r.space p2.subspace_prev key newvalue).point }
      else p2
    else p2
  if !set_next && p3.subspace_next ≠ UINT16_MAX then
    if has_oldvalue && has_newvalue then
      { p3 with point_next := (cfg.repl_hasher r.space p3.subspace_next key oldvalue).point }
    else if has_oldvalue then
      { p3 with point_next := (cfg.repl_hasher r.space p3.subspace_next key oldvalue).point }
    else if has_newvalue then
      { p3 with point_next := (cfg.repl_hasher r.space p3.subspace_next key newvalue).point }
    else p3
  else p3

/-- replication_manager.cc, prev_and_next: compute the adjacent
subspaces, hash this subspace on the available sides, and classify by
region containment; the case with no value on either side is the C
abort() (none), and the dropped cases return false. -/
def prev_and_next (cfg : rm_config) (r : regionid) (key : Bytes)
    (has_newvalue : Bool) (newvalue : List Bytes)
    (has_oldvalue : Bool) (oldvalue : List Bytes)
    (pend : pending) : Option (Bool × pending) :=
  let subspaces := cfg.subspaces r.space
  let p1 := { pend with
    subspace_prev := if r.subspace > 0 then r.subspace - 1 else UINT16_MAX,
    subspace_next := if r.subspace < subspaces - 1 then r.subspace + 1 else UINT16_MAX }
  match
    (if has_oldvalue && has_newvalue then
      some (cfg.repl_hasher r.space r.subspace key oldvalue,
            cfg.repl_hasher r.space r.subspace key newvalue)
    else if has_oldvalue then
      some (cfg.repl_hasher r.space r.subspace key oldvalue,
            cfg.repl_hasher r.space r.subspace key oldvalue)
    else if has_newvalue then
      some (cfg.repl_hasher r.space r.subspace key newvalue,
            cfg.repl_hasher r.space r.subspace key newvalue)
    else none) with
  | none => none
  | some (coord_this_old, coord_this_new) =>
    if r.coord.contains coord_this_old && r.coord.contains coord_this_new then
      some (true, prev_and_next_tail cfg r key has_newvalue newvalue
        has_oldvalue oldvalue false { p1 with point_this := coord_this_new.point })
    else if r.coord.contains coord_this_old then
      let p2a :=
        if p1.subspace_next ≠ UINT16_MAX then
          { p1 with point_next_next :=
              (cfg.repl_hasher r.space p1.subspace_next key oldvalue).point }
        else p1
      some (true, prev_and_next_tail cfg r key has_newvalue newvalue
        has_oldvalue oldvalue true
        { p2a with subspace_next := r.subspace, point_this := coord_this_old.point,
                   point_next := coord_this_new.point })
    else
      some (false, p1)

/-- replication_manager.cc, send_message, the CHAIN_PUT/CHAIN_DEL fall
through: pack the value (and the fresh flag) for a put, only the key for
a delete; record the destination as sent on messenger success. -/
def send_put_del (cfg : rm_config) (_m_us : Nat) (us dst : entityid)
    (version : Nat) (key : Bytes) (op : pending) : pending × List effect :=
  if op.has_value then
    (if cfg.comm_ok us dst then
      { op with sent_e := dst, sent_i := cfg.instancefor dst } else op,
     [effect.chain_put_msg us dst version op.fresh key op.value])
  else
    (if cfg.comm_ok us dst then
      { op with sent_e := dst, sent_i := cfg.instancefor dst } else op,
     [effect.chain_del_msg us dst version key])

/-- replication_manager.cc, send_message: idempotent when sent_e is
already set; a tail either acks itself (no next subspace), starts a
subspace transfer, or forwards to the head of the next subspace (any
other next subspace is the C abort(), none); a non-tail forwards a
CHAIN_SUBSPACE mid-transfer and a CHAIN_PUT/CHAIN_DEL otherwise. -/
def send_message (cfg : rm_config) (m_us : Nat) (us : entityid)
    (version : Nat) (key : Bytes) (op : pending) : Option (pending × List effect) :=
  if op.sent_e ≠ entityid_none then some (op, [])
  else if cfg.is_tail us then
    if op.subspace_next = UINT16_MAX then
      let eff := effect.chain_ack_msg us us version key
      some (if cfg.comm_ok us us then
          ({ op with sent_e := us, sent_i := m_us }, [eff])
        else (op, [eff]))
    else if op.subspace_next = us.subspace then
      let dst := cfg.sloppy_lookup ⟨us.space, us.subspace, 64, op.point_next, 0⟩
      let eff := effect.chain_subspace_msg us dst version key op.value op.point_next_next
      some (if cfg.comm_ok us dst then
          ({ op with sent_e := dst, sent_i := cfg.instancefor dst }, [eff])
        else (op, [eff]))
    else if op.subspace_next = us.subspace + 1 then
      some (send_put_del cfg m_us us
        (cfg.sloppy_lookup ⟨us.space, op.subspace_next, 64, op.point_next, 0⟩)
        version key op)
    else none
  else
    if op.subspace_prev = us.subspace then
      let dst := cfg.chain_next us
      let eff := effect.chain_subspace_msg us dst version key op.value op.point_next
      some (if cfg.comm_ok us dst then
          ({ op with sent_e := dst, sent_i := cfg.instancefor dst }, [eff])
        else (op, [eff]))
    else
      some (send_put_del cfg m_us us (cfg.chain_next us) version key op)

/-- replication_manager.cc, move_operations_between_queues, first loop:
promote deferred ops whose predecessor version is now the latest known
version; drop deferred ops at or below it; stop when a gap remains.  The
result flag is false on the mid-loop returns (dropped host checks),
which skip the second loop; the C code dereferences a null oldop when a
deferred version directly follows an empty keyholder (none).
latest_of is the version selection at the top of the loop body: the most
recent blocked op, else the most recent committable op. -/
def latest_of (kh : keyholder) : Option (Nat × pending) :=
  match kh.blocked_q.getLast? with
  | some p => some p
  | none => kh.committable_q.getLast?

def move_deferred_go (cfg : rm_config) (us : entityid) (key : Bytes) :
    List (Nat × deferredop) → keyholder → Option (keyholder × Bool)
  | [], kh => some (kh, true)
  | (dv, dop) :: rest, kh =>
    if ((latest_of kh).map Prod.fst).getD 0 ≥ dv then
      move_deferred_go cfg us key rest { kh with deferred_q := rest }
    else if ((latest_of kh).map Prod.fst).getD 0 + 1 ≠ dv then
      some (kh, true)
    else
      match latest_of kh with
      | none => none
      | some (_, oldop) =>
        match prev_and_next cfg us.get_region key dop.has_value dop.value
            oldop.has_value oldop.value
            { has_value := dop.has_value, key := dop.key, value := dop.value,
              fresh := false, ref := dop.ref, recv_e := dop.from_ent,
              recv_i := cfg.instancefor dop.from_ent } with
        | none => none
        | some (false, _) => some (kh, false)
        | some (true, np) =>
          if ¬((np.recv_e.get_region = us.get_region ∧ cfg.chain_adjacent np.recv_e us) ∨
               (np.recv_e.space = us.space ∧ np.recv_e.subspace + 1 = us.subspace ∧
                cfg.is_tail np.recv_e ∧ cfg.is_head us)) then
            some (kh, false)
          else
            move_deferred_go cfg us key rest
              { kh with blocked_q := kh.blocked_q ++ [(dv, np)], deferred_q := rest }

/-- replication_manager.cc, move_operations_between_queues, second loop:
release blocked ops in order, transferring each to the committable tail
and sending its chain message; stop when the oldest blocked op is fresh
or a delete while committable ops are outstanding. -/
def move_blocked_go (cfg : rm_config) (m_us : Nat) (us : entityid) (key : Bytes) :
    List (Nat × pending) → keyholder → List effect → Option (keyholder × List effect)
  | [], kh, effs => some (kh, effs)
  | (v, op) :: rest, kh, effs =>
    if (op.fresh || !op.has_value) && kh.has_committable_ops then
      some (kh, effs)
    else
      match send_message cfg m_us us v key op with
      | none => none
      | some (op2, seffs) =>
        move_blocked_go cfg m_us us key rest
          { kh with blocked_q := rest, committable_q := kh.committable_q ++ [(v, op2)] }
          (effs ++ seffs)

/-- replication_manager.cc, move_operations_between_queues. -/
def move_operations_between_queues (cfg : rm_config) (m_us : Nat) (us : entityid)
    (key : Bytes) (kh : keyholder) : Option (keyholder × List effect) :=
  match move_deferred_go cfg us key kh.deferred_q kh with
  | none => none
  | some (kh1, proceed) =>
    if proceed then move_blocked_go cfg m_us us key kh1.blocked_q kh1 []
    else some (kh1, [])

/-- The committable garbage collection loop of chain_ack: pop acked ops
from the front. -/
def gc_acked : List (Nat × pending) → List (Nat × pending)
  | [] => []
  | (v, op) :: r => if op.acked then gc_acked r else (v, op) :: r

/-- replication_manager.cc, chain_common from the point where the
predecessor is resolved: defer when the predecessor is unknown and the
op is not fresh; otherwise build the pending op, compute its chain
coordinates, apply the host checks, append to blocked and run the queue
mover. -/
def chain_common_rest (cfg : rm_config) (has_value : Bool) (from_ to_ : entityid)
    (version : Nat) (fresh : Bool) (key : Bytes) (value : List Bytes) (m_us : Nat)
    (kh : keyholder) (oldversion : Nat) (has_oldvalue : Bool) (oldvalue : List Bytes)
    (ref : Nat) : Option (keyholder × List effect) :=
  if oldversion = 0 ∧ fresh = false then
    some (kh.insert_deferred version
      ⟨has_value, key, value, from_, cfg.instancefor from_, ref⟩, [])
  else
    let newpend : pending :=
      { has_value := has_value, key := key, value := value, fresh := fresh,
        ref := ref, recv_e := from_, recv_i := cfg.instancefor from_ }
    match prev_and_next cfg to_.get_region key has_value value has_oldvalue oldvalue newpend with
    | none => none
    | some (false, _) => some (kh, [])
    | some (true, np) =>
      if ¬((from_.get_region = to_.get_region ∧ cfg.chain_adjacent from_ to_) ∨
           (from_.space = to_.space ∧ from_.subspace + 1 = to_.subspace ∧
            cfg.is_tail from_ ∧ cfg.is_head to_)) then
        some (kh, [])
      else
        move_operations_between_queues cfg m_us to_ key (kh.append_blocked version np)

/-- replication_manager.cc, chain_common: arity check, re-ack of an
already-seen version, predecessor lookup in the queues then on disk (an
already-stored version is acked; an unknown predecessor is marked
version zero), then the rest of the handler. -/
def chain_common (cfg : rm_config) (d : rm_datalayer) (has_value : Bool)
    (from_ to_ : entityid) (version : Nat) (fresh : Bool) (key : Bytes)
    (value : List Bytes) (m_us : Nat) (kh : keyholder) :
    Option (keyholder × List effect) :=
  if has_value ∧ cfg.attrs_sz to_.space ≠ value.length + 1 then some (kh, [])
  else
    match kh.get_by_version version with
    | some _ =>
      some (kh.update_by_version version
          (fun p => { p with recv_e := from_, recv_i := cfg.instancefor from_ }),
        [effect.chain_ack_msg to_ from_ version key])
    | none =>
      match kh.get_by_version (u64_pred version) with
      | some oop =>
        chain_common_rest cfg has_value from_ to_ version fresh key value m_us kh
          (u64_pred version) oop.has_value oop.value 0
      | none =>
        match from_disk d to_.get_region key with
        | none => some (kh, [])
        | some (hov, ov, over, ref) =>
          if over ≥ version then
            some (kh, [effect.chain_ack_msg to_ from_ version key])
          else
            chain_common_rest cfg has_value from_ to_ version fresh key value m_us kh
              (if over < u64_pred version then 0 else over) hov ov ref

/-- replication_manager.cc, chain_ack: find the op, drop acks that were
not expected from this sender, record the trigger, mark acked, persist,
garbage-collect acked committable ops, run the queue mover, then either
answer the client (at the point-leader, guarded by the co.from.space ==
UINT32_MAX test the source performs) or forward the ack upstream; erase
the keyholder when it drained (the erased table entry is the none
result). -/
def chain_ack (cfg : rm_config) (d : rm_datalayer) (from_ to_ : entityid)
    (version : Nat) (key : Bytes) (m_us : Nat) (kh : keyholder) :
    Option (Option keyholder × List effect) :=
  match kh.get_by_version version with
  | none => some (some kh, [])
  | some pend =>
    if pend.sent_e = entityid_none then some (some kh, [])
    else if from_ ≠ pend.sent_e then some (some kh, [])
    else
      let eff1 : List effect := [effect.add_trigger to_.get_region key version]
      let kh1 := kh.update_by_version version (fun p => { p with acked := true })
      match put_to_disk d to_.get_region kh1 version with
      | none => none
      | some (kh2, eff2, _) =>
        let kh3 := { kh2 with committable_q := gc_acked kh2.committable_q }
        match move_operations_between_queues cfg m_us to_ key kh3 with
        | none => none
        | some (kh4, eff3) =>
          if cfg.is_point_leader to_ then
            if pend.co.from_e.space = UINT32_MAX then
              let kh5 := kh4.update_by_version version (fun p => { p with co := clientop_none })
              some ((if kh5.empty then none else some kh5),
                eff1 ++ eff2 ++ eff3 ++
                  [effect.respond to_ pend.co.from_e pend.co.nonce pend.retcode .NET_SUCCESS])
            else
              some ((if kh4.empty then none else some kh4), eff1 ++ eff2 ++ eff3)
          else
            some ((if kh4.empty then none else some kh4),
              eff1 ++ eff2 ++ eff3 ++ [effect.chain_ack_msg to_ pend.recv_e version key])

/-- The keyholder table: the concurrent hash map from (region, key) to
keyholder. -/
abbrev kh_table := List ((regionid × Bytes) × keyholder)

def table_lookup (tbl : kh_table) (kp : regionid × Bytes) : Option keyholder :=
  (tbl.find? (fun e => e.1 == kp)).map Prod.snd

def table_set (kp : regionid × Bytes) (kh : keyholder) : kh_table → kh_table
  | [] => [(kp, kh)]
  | e :: r => if e.1 == kp then (kp, kh) :: r else e :: table_set kp kh r

/-- replication_manager.cc, get_keyholder: look the pair up, inserting a
fresh keyholder when absent. -/
def get_keyholder (tbl : kh_table) (kp : regionid × Bytes) : kh_table × keyholder :=
  match table_lookup tbl kp with
  | some kh => (tbl, kh)
  | none => (tbl ++ [(kp, {})], {})

/-- replication_manager.cc, client_atomic: quiesce check, key
validation, point-leader check, then under the stripe lock fetch the
keyholder, resolve the latest version, apply the early exits, run the
checks-and-ops oracle, build the pending op with its chain coordinates,
append it to blocked and run the queue mover.  The scope guard's
SERVERERROR reply stands in for every return that does not dismiss
it. -/
def client_atomic (cfg : rm_config) (d : rm_datalayer)
    (aco : Bytes → List Bytes → Nat × Bytes × List Bytes × microerror)
    (num_checks_ops : Nat) (opcode : Nat) (from_ to_ : entityid) (nonce : Nat)
    (fail_if_not_found fail_if_found : Bool) (key : Bytes) (m_us : Nat)
    (tbl : kh_table) : Option (kh_table × List effect) :=
  if cfg.quiesce_flag then
    some (tbl, [effect.respond to_ from_ nonce opcode .NET_READONLY])
  else if !cfg.validate_key_attr to_.space key then
    some (tbl, [effect.respond to_ from_ nonce opcode .NET_BADDIMSPEC])
  else if !cfg.is_point_leader to_ then
    some (tbl, [effect.respond to_ from_ nonce opcode .NET_NOTUS])
  else
    let kp := (to_.get_region, key)
    let tk := get_keyholder tbl kp
    match retrieve_latest d to_.get_region key tk.2 with
    | none => some (tk.1, [effect.respond to_ from_ nonce opcode .NET_SERVERERROR])
    | some (old_version, has_old, old_value, ref) =>
      if !has_old && fail_if_not_found then
        some (tk.1, [effect.respond to_ from_ nonce opcode .NET_NOTFOUND])
      else if has_old && fail_if_found then
        some (tk.1, [effect.respond to_ from_ nonce opcode .NET_CMPFAIL])
      else if old_value.length ≠ 0 ∧ old_value.length + 1 ≠ cfg.attrs_sz to_.space then
        some (tk.1, [effect.respond to_ from_ nonce opcode .NET_SERVERERROR])
      else
        let fresh := !has_old
        let width := cfg.attrs_sz to_.space - 1
        let old_value2 := old_value.take width ++ List.replicate (width - old_value.length) []
        let r := aco key old_value2
        if r.1 ≠ num_checks_ops then
          some (tk.1, [effect.respond to_ from_ nonce opcode
            (if r.2.2.2 = .MICROERR_OVERFLOW then .NET_OVERFLOW else .NET_CMPFAIL)])
        else
          let np0 : pending :=
            { has_value := true, key := r.2.1, value := r.2.2.1,
              co := ⟨to_.get_region, from_, nonce⟩, retcode := opcode,
              ref := ref, fresh := fresh }
          match prev_and_next cfg to_.get_region np0.key true np0.value has_old old_value2 np0 with
          | none => none
          | some (false, _) => some (tk.1, [effect.respond to_ from_ nonce opcode .NET_NOTUS])
          | some (true, np) =>
            match move_operations_between_queues cfg m_us to_ key
                (tk.2.append_blocked (old_version + 1) np) with
            | none => none
            | some (kh2, effs) => some (table_set kp kh2 tk.1, effs)

/-- replication_manager.cc, reconfigure, the keyholder sweep loop as
written: the iterator is modelled by its position (begin() is position
zero) and the loop's continuation condition is khiter != begin(), which
is false on entry, so the body never runs; the body, as the source has
it, would drop entries whose region is no longer hosted.  Fuel bounds
the (unreachable) walk. -/
def reconfigure_sweep_go (inr : regionid → Bool) : Nat → Nat → kh_table → kh_table
  | 0, _, cur => cur
  | f + 1, idx, cur =>
    if idx ≠ 0 then
      match cur.get? idx with
      | none => cur
      | some e =>
        if !inr e.1.1 then reconfigure_sweep_go inr f idx (cur.eraseIdx idx)
        else reconfigure_sweep_go inr f (idx + 1) cur
    else cur

/-- replication_manager.cc, reconfigure: record the quiesce request
(monotone; the state id is taken each time) and run the keyholder sweep
loop. -/
def reconfigure (newquiesce : Bool) (new_qsid : Nat) (inr : regionid → Bool)
    (m_quiesce : Bool) (m_qsid : Nat) (tbl : kh_table) : Bool × Nat × kh_table :=
  let q := if newquiesce then (true, new_qsid) else (m_quiesce, m_qsid)
  (q.1, q.2, reconfigure_sweep_go inr tbl.length 0 tbl)

/-- C9: with the quiesce flag set, client_atomic replies READONLY and
returns with the keyholder table untouched — no keyholder is created or
mutated and no update is enqueued, so no SUCCESS reply can follow from
the call. -/
theorem claim_C9_client_atomic_readonly (cfg : rm_config) (d : rm_datalayer)
    (aco : Bytes → List Bytes → Nat × Bytes × List Bytes × microerror)
    (num_checks_ops opcode : Nat) (from_ to_ : entityid) (nonce : Nat)
    (fail_if_not_found fail_if_found : Bool) (key : Bytes) (m_us : Nat)
    (tbl : kh_table) (hq : cfg.quiesce_flag = true) :
    client_atomic cfg d aco num_checks_ops opcode from_ to_ nonce
      fail_if_not_found fail_if_found key m_us tbl =
      some (tbl, [effect.respond to_ from_ nonce opcode .NET_READONLY]) := by
  unfold client_atomic
  rw [if_pos hq]

/-- The deferred-promotion loop never touches the committable queue and
only appends at the tail of the blocked queue. -/
theorem move_deferred_go_shape (cfg : rm_config) (us : entityid) (key : Bytes) :
    ∀ (dq : List (Nat × deferredop)) (kh kh1 : keyholder) (b : Bool),
      move_deferred_go cfg us key dq kh = some (kh1, b) →
      kh1.committable_q = kh.committable_q ∧
      ∃ extra, kh1.blocked_q = kh.blocked_q ++ extra := by
  intro dq
  induction dq with
  | nil =>
    intro kh kh1 b h
    cases h
    exact ⟨rfl, [], by simp⟩
  | cons x rest ih =>
    intro kh kh1 b h
    obtain ⟨dv, dop⟩ := x
    unfold move_deferred_go at h
    split at h
    · obtain ⟨hcm, extra, hbl⟩ := ih _ kh1 b h
      exact ⟨hcm, extra, hbl⟩
    · split at h
      · cases h
        exact ⟨rfl, [], by simp⟩
      · split at h
        · exact absurd h (by simp)
        · split at h
          · exact absurd h (by simp)
          · cases h
            exact ⟨rfl, [], by simp⟩
          · rename_i np hpn
            split at h
            · cases h
              exact ⟨rfl, [], by simp⟩
            · obtain ⟨hcm, extra, hbl⟩ := ih _ kh1 b h
              refine ⟨hcm, (dv, np) :: extra, ?_⟩
              rw [hbl]
              simp

/-- C5: in move_operations_between_queues, the oldest blocked op is
never transferred to committable while it is fresh or a delete and the
committable queue is non-empty: the run leaves the committable queue as
it was, keeps that op at the head of blocked, and sends nothing. -/
theorem claim_C5_fresh_delete_serialized (cfg : rm_config) (m_us : Nat)
    (us : entityid) (key : Bytes) (kh : keyholder) (v : Nat) (op : pending)
    (rest : List (Nat × pending)) (kh' : keyholder) (effs : List effect)
    (hb : kh.blocked_q = (v, op) :: rest)
    (hf : op.fresh = true ∨ op.has_value = false)
    (hc : kh.committable_q ≠ [])
    (hr : move_operations_between_queues cfg m_us us key kh = some (kh', effs)) :
    kh'.committable_q = kh.committable_q ∧
    kh'.blocked_q.head? = some (v, op) ∧
    effs = [] := by
  unfold move_operations_between_queues at hr
  split at hr
  · exact absurd hr (by simp)
  · rename_i kh1 proceed hdef
    obtain ⟨hcm, extra, hbl⟩ := move_deferred_go_shape cfg us key kh.deferred_q kh kh1 proceed hdef
    split at hr
    · rw [hbl, hb, List.cons_append] at hr
      have hcm1 : kh1.has_committable_ops = true := by
        unfold keyholder.has_committable_ops
        rw [hcm]
        simpa [List.isEmpty_iff] using hc
      have hguard : ((op.fresh || !op.has_value) && kh1.has_committable_ops) = true := by
        rcases hf with h | h <;> simp [h, hcm1]
      unfold move_blocked_go at hr
      rw [if_pos hguard] at hr
      simp only [Option.some.injEq, Prod.mk.injEq] at hr
      obtain ⟨h1, h2⟩ := hr
      subst h1
      subst h2
      exact ⟨hcm, by rw [hbl, hb]; simp, rfl⟩
    · simp only [Option.some.injEq, Prod.mk.injEq] at hr
      obtain ⟨h1, h2⟩ := hr
      subst h1
      subst h2
      exact ⟨hcm, by rw [hbl, hb]; simp, rfl⟩

theorem u64_pred_eq (v : Nat) (h1 : 1 ≤ v) (h64 : v < 2 ^ 64) : u64_pred v = v - 1 := by
  unfold u64_pred
  omega

theorem insert_deferred_list_mem (v : Nat) (d : deferredop) :
    ∀ l : List (Nat × deferredop), v ∉ l.map Prod.fst →
      (v, d) ∈ insert_deferred_list v d l := by
  intro l
  induction l with
  | nil => intro _; simp [insert_deferred_list]
  | cons x r ih =>
    intro hmem
    unfold insert_deferred_list
    split
    · exact List.mem_cons_self _ _
    · split
      · rename_i hveq
        exact absurd (by simp [hveq]) hmem
      · exact List.mem_cons_of_mem _ (ih (fun hm => hmem (by simp [hm])))

/-- C4: a CHAIN_PUT/CHAIN_DEL handled by chain_common with no op at
version or version-1 in the queues: when the disk already stores a
version at least as new, the handler acks the sender and leaves the
keyholder unchanged; when the disk version is older than version-1 (the
predecessor is unknown) and the op is not fresh, the op is inserted into
the deferred queue at its version while blocked and committable stay
unchanged and nothing is sent. -/
theorem claim_C4_chain_common_disk_paths (cfg : rm_config) (d : rm_datalayer)
    (has_value : Bool) (from_ to_ : entityid) (version : Nat) (fresh : Bool)
    (key : Bytes) (value : List Bytes) (m_us : Nat) (kh : keyholder)
    (hov : Bool) (ov : List Bytes) (over ref : Nat)
    (hv64 : version < 2 ^ 64) (hv1 : 1 ≤ version)
    (harity : has_value = true → cfg.attrs_sz to_.space = value.length + 1)
    (hnew : kh.get_by_version version = none)
    (hold : kh.get_by_version (version - 1) = none)
    (hdisk : from_disk d to_.get_region key = some (hov, ov, over, ref))
    (hnodef : version ∉ kh.deferred_q.map Prod.fst) :
    (over ≥ version →
      chain_common cfg d has_value from_ to_ version fresh key value m_us kh =
        some (kh, [effect.chain_ack_msg to_ from_ version key])) ∧
    (over < version - 1 → fresh = false →
      chain_common cfg d has_value from_ to_ version fresh key value m_us kh =
        some (kh.insert_deferred version
          ⟨has_value, key, value, from_, cfg.instancefor from_, ref⟩, []) ∧
      (kh.insert_deferred version
        ⟨has_value, key, value, from_, cfg.instancefor from_, ref⟩).blocked_q = kh.blocked_q ∧
      (kh.insert_deferred version
        ⟨has_value, key, value, from_, cfg.instancefor from_, ref⟩).committable_q = kh.committable_q ∧
      (version, (⟨has_value, key, value, from_, cfg.instancefor from_, ref⟩ : deferredop)) ∈
        (kh.insert_deferred version
          ⟨has_value, key, value, from_, cfg.instancefor from_, ref⟩).deferred_q) := by
  have hpred := u64_pred_eq version hv1 hv64
  have harity2 : ¬(has_value = true ∧ cfg.attrs_sz to_.space ≠ value.length + 1) := by
    rintro ⟨h1, h2⟩
    exact h2 (harity h1)
  constructor
  · intro hge
    unfold chain_common
    rw [if_neg harity2, hnew, hpred, hold, hdisk]
    simp only [ge_iff_le]
    rw [if_pos hge]
  · intro hlt hfr
    unfold chain_common
    rw [if_neg harity2, hnew, hpred, hold, hdisk]
    have hnge : ¬(over ≥ version) := by omega
    simp only [ge_iff_le]
    rw [if_neg (by omega)]
    rw [if_pos hlt]
    unfold chain_common_rest
    rw [if_pos ⟨rfl, hfr⟩]
    refine ⟨rfl, rfl, rfl, ?_⟩
    exact insert_deferred_list_mem version _ kh.deferred_q hnodef

/-- The datalayer used by the witnesses: the disk stores one object at
version five. -/
def c4dl : rm_datalayer :=
  { get := fun _ _ => .success [[118]] 5 0,
    del_rc := fun _ _ => 0, put_rc := fun _ _ _ _ => 0 }

/-- A configuration oracle used by the witnesses. -/
def cfg0 : rm_config :=
  { quiesce_flag := true,
    attrs_sz := fun _ => 2,
    validate_key_attr := fun _ _ => true,
    is_point_leader := fun _ => true,
    instancefor := fun _ => 1,
    subspaces := fun _ => 1,
    repl_hasher := fun _ sub _ val => ⟨64, sub * 100 + val.length⟩,
    chain_adjacent := fun _ _ => false,
    is_tail := fun _ => true,
    is_head := fun _ => true,
    chain_next := fun e => e,
    sloppy_lookup := fun e => e,
    in_region := fun _ => true,
    entityfor := fun _ => entityid_none,
    comm_ok := fun _ _ => true }

def e_client : entityid := ⟨7, 0, 0, 0, 0⟩

def e_leader : entityid := ⟨1, 0, 0, 0, 0⟩

def e_sender : entityid := ⟨1, 0, 0, 0, 2⟩

/-- Witness for C4: with the disk at version five, a CHAIN_PUT at
version three on an empty keyholder is acked and changes nothing. -/
theorem claim_C4_witness :
    (5 ≥ 3 →
      chain_common cfg0 c4dl true e_sender e_leader 3 false [107] [[118]] 1 {} =
        some (({} : keyholder), [effect.chain_ack_msg e_leader e_sender 3 [107]])) ∧
    (5 < 3 - 1 → false = false →
      chain_common cfg0 c4dl true e_sender e_leader 3 false [107] [[118]] 1 {} =
        some (keyholder.insert_deferred {} 3
          ⟨true, [107], [[118]], e_sender, cfg0.instancefor e_sender, 0⟩, []) ∧
      (keyholder.insert_deferred {} 3
        ⟨true, [107], [[118]], e_sender, cfg0.instancefor e_sender, 0⟩).blocked_q =
        ({} : keyholder).blocked_q ∧
      (keyholder.insert_deferred {} 3
        ⟨true, [107], [[118]], e_sender, cfg0.instancefor e_sender, 0⟩).committable_q =
        ({} : keyholder).committable_q ∧
      (3, (⟨true, [107], [[118]], e_sender, cfg0.instancefor e_sender, 0⟩ : deferredop)) ∈
        (keyholder.insert_deferred {} 3
          ⟨true, [107], [[118]], e_sender, cfg0.instancefor e_sender, 0⟩).deferred_q) :=
  claim_C4_chain_common_disk_paths cfg0 c4dl true e_sender e_leader 3 false [107] [[118]]
    1 {} true [[118]] 5 0 (by decide) (by decide) (fun _ => rfl) rfl rfl rfl (by decide)

theorem prev_and_next_tail_facts (cfg : rm_config) (r : regionid) (key : Bytes)
    (newvalue oldvalue : List Bytes) (set_next : Bool) (p2 : pending) :
    (prev_and_next_tail cfg r key true newvalue true oldvalue set_next p2).point_this =
      p2.point_this ∧
    (prev_and_next_tail cfg r key true newvalue true oldvalue set_next p2).subspace_prev =
      p2.subspace_prev ∧
    (prev_and_next_tail cfg r key true newvalue true oldvalue set_next p2).subspace_next =
      p2.subspace_next ∧
    (p2.subspace_prev ≠ UINT16_MAX →
      (prev_and_next_tail cfg r key true newvalue true oldvalue set_next p2).point_prev =
        (cfg.repl_hasher r.space p2.subspace_prev key newvalue).point) ∧
    (set_next = false → p2.subspace_next ≠ UINT16_MAX →
      (prev_and_next_tail cfg r key true newvalue true oldvalue set_next p2).point_next =
        (cfg.repl_hasher r.space p2.subspace_next key oldvalue).point) := by
  by_cases hp : p2.subspace_prev = UINT16_MAX <;>
    by_cases hn : p2.subspace_next = UINT16_MAX <;>
      cases set_next <;>
        simp [prev_and_next_tail, hp, hn]

/-- C6: on the normal forward path (both values present, the region
contains both hashes) prev_and_next succeeds; point_this is the point of
the new value's hash in this subspace, and when the adjacent subspaces
exist, point_prev is the previous subspace's hash of the new value and
point_next is the next subspace's hash of the old value. -/
theorem claim_C6_prev_and_next_normal (cfg : rm_config) (r : regionid) (key : Bytes)
    (newvalue oldvalue : List Bytes) (pend : pending)
    (hsub : r.subspace < UINT16_MAX)
    (hcnt : cfg.subspaces r.space ≤ UINT16_MAX)
    (h1 : r.coord.contains (cfg.repl_hasher r.space r.subspace key oldvalue) = true)
    (h2 : r.coord.contains (cfg.repl_hasher r.space r.subspace key newvalue) = true) :
    ∃ p', prev_and_next cfg r key true newvalue true oldvalue pend = some (true, p') ∧
      p'.point_this = (cfg.repl_hasher r.space r.subspace key newvalue).point ∧
      (0 < r.subspace →
        p'.subspace_prev = r.subspace - 1 ∧
        p'.point_prev = (cfg.repl_hasher r.space (r.subspace - 1) key newvalue).point) ∧
      (r.subspace < cfg.subspaces r.space - 1 →
        p'.subspace_next = r.subspace + 1 ∧
        p'.point_next = (cfg.repl_hasher r.space (r.subspace + 1) key oldvalue).point) := by
  have hrun : prev_and_next cfg r key true newvalue true oldvalue pend =
      some (true, prev_and_next_tail cfg r key true newvalue true oldvalue false
        { pend with
          subspace_prev := if r.subspace > 0 then r.subspace - 1 else UINT16_MAX,
          subspace_next :=
            if r.subspace < cfg.subspaces r.space - 1 then r.subspace + 1 else UINT16_MAX,
          point_this := (cfg.repl_hasher r.space r.subspace key newvalue).point }) := by
    unfold prev_and_next
    simp [h1, h2]
  obtain ⟨hthis, hsp, hsn, hpp, hpn⟩ := prev_and_next_tail_facts cfg r key newvalue oldvalue
    false ({ pend with
      subspace_prev := if r.subspace > 0 then r.subspace - 1 else UINT16_MAX,
      subspace_next :=
        if r.subspace < cfg.subspaces r.space - 1 then r.subspace + 1 else UINT16_MAX,
      point_this := (cfg.repl_hasher r.space r.subspace key newvalue).point })
  refine ⟨_, hrun, by simpa using hthis, ?_, ?_⟩
  · intro hpos
    have hspval : (({ pend with
        subspace_prev := if r.subspace > 0 then r.subspace - 1 else UINT16_MAX,
        subspace_next :=
          if r.subspace < cfg.subspaces r.space - 1 then r.subspace + 1 else UINT16_MAX,
        point_this := (cfg.repl_hasher r.space r.subspace key newvalue).point } :
          pending)).subspace_prev = r.subspace - 1 := by
      simp [hpos]
    have hne : r.subspace - 1 ≠ UINT16_MAX := by
      unfold UINT16_MAX at hsub ⊢
      omega
    constructor
    · rw [hsp, hspval]
    · rw [hpp (by rw [hspval]; exact hne), hspval]
  · intro hlt
    have hsnval : (({ pend with
        subspace_prev := if r.subspace > 0 then r.subspace - 1 else UINT16_MAX,
        subspace_next :=
          if r.subspace < cfg.subspaces r.space - 1 then r.subspace + 1 else UINT16_MAX,
        point_this := (cfg.repl_hasher r.space r.subspace key newvalue).point } :
          pending)).subspace_next = r.subspace + 1 := by
      simp [hlt]
    have hne : r.subspace + 1 ≠ UINT16_MAX := by
      unfold UINT16_MAX at hcnt ⊢
      omega
    constructor
    · rw [hsn, hsnval]
    · rw [hpn rfl (by rw [hsnval]; exact hne), hsnval]

/-- Witness for C6 at a concrete configuration with three subspaces. -/
theorem claim_C6_witness :
    ∃ p', prev_and_next
        { cfg0 with subspaces := fun _ => 3 } ⟨1, 1, 0, 0⟩ [107] true [[5]] true [[6, 6]]
        { has_value := true, key := [107], value := [[5]] } = some (true, p') ∧
      p'.point_this = (({ cfg0 with subspaces := fun _ => 3 }).repl_hasher 1 1 [107] [[5]]).point ∧
      (0 < (⟨1, 1, 0, 0⟩ : regionid).subspace →
        p'.subspace_prev = 0 ∧
        p'.point_prev = (({ cfg0 with subspaces := fun _ => 3 }).repl_hasher 1 0 [107] [[5]]).point) ∧
      ((⟨1, 1, 0, 0⟩ : regionid).subspace < 3 - 1 →
        p'.subspace_next = 2 ∧
        p'.point_next = (({ cfg0 with subspaces := fun _ => 3 }).repl_hasher 1 2 [107] [[6, 6]]).point) :=
  claim_C6_prev_and_next_normal { cfg0 with subspaces := fun _ => 3 } ⟨1, 1, 0, 0⟩ [107]
    [[5]] [[6, 6]] { has_value := true, key := [107], value := [[5]] }
    (by decide) (by decide) (by decide) (by decide)

/-- Witness for C9 at a concrete quiescing configuration. -/
theorem claim_C9_witness :
    client_atomic cfg0 c4dl (fun _ _ => (0, [], [], .MICROERR_MALFORMED)) 0 11
      e_client e_leader 7 false false [107] 1 [] =
      some ([], [effect.respond e_leader e_client 7 11 .NET_READONLY]) :=
  claim_C9_client_atomic_readonly cfg0 c4dl (fun _ _ => (0, [], [], .MICROERR_MALFORMED))
    0 11 e_client e_leader 7 false false [107] 1 [] rfl

def c1cfg : rm_config := { cfg0 with quiesce_flag := false }

/-- The pending op of the C1 failing input: fully sent, awaiting its
ack, carrying a real client op (from.space is 7, not the UINT32_MAX
none marker). -/
def c1pend : pending :=
  { has_value := true, key := [107], value := [[118]],
    co := ⟨e_leader.get_region, e_client, 42⟩, retcode := 33,
    sent_e := e_sender, sent_i := 1, subspace_next := UINT16_MAX }

def c1kh : keyholder := { committable_q := [(3, c1pend)] }

/-- Recognizer for client responses among the effects. -/
def is_respond : effect → Bool
  | .respond _ _ _ _ _ => true
  | _ => false

/-- C1, evaluation at the failing input: the receiving entity is
point-leader and the acked op carries a pending client op, yet
chain_ack's run produces no client response at all (only the trigger and
the disk write) because the source guards the SUCCESS reply with
pend->co.from.space == UINT32_MAX — the emptiness marker — instead of
its negation.  The claim says the client should have received
SUCCESS. -/
theorem claim_C1_code_divergence :
    chain_ack c1cfg c4dl e_sender e_leader 3 [107] 1 c1kh =
      some (none, [effect.add_trigger e_leader.get_region [107] 3,
                   effect.disk_put e_leader.get_region [107] [[118]] 3]) ∧
    c1cfg.is_point_leader e_leader = true ∧
    c1pend.co.from_e.space ≠ UINT32_MAX ∧
    ([effect.add_trigger e_leader.get_region [107] 3,
      effect.disk_put e_leader.get_region [107] [[118]] 3].all
        (fun e => !is_respond e)) = true := by
  refine ⟨by rfl, rfl, by decide, rfl⟩

def c3kp : regionid × Bytes := (⟨1, 0, 0, 0⟩, [107])

/-- C3, evaluation of the sweep: the reconfigure loop's continuation
condition is khiter != begin() with khiter initialized to begin(), so
the body never runs and no keyholder is ever dropped — in particular a
keyholder whose region is not hosted under the new configuration
remains in the table, where the claim says it must be removed. -/
theorem claim_C3_code_divergence :
    (∀ (inr : regionid → Bool) (newq : Bool) (qsid mqsid : Nat) (mq : Bool)
      (tbl : kh_table), (reconfigure newq qsid inr mq mqsid tbl).2.2 = tbl) ∧
    (reconfigure true 5 (fun _ => false) false 0 [(c3kp, {})]).2.2 = [(c3kp, {})] ∧
    (fun (_ : regionid) => false) c3kp.1 = false := by
  have hgo : ∀ (inr : regionid → Bool) (fuel : Nat) (tbl : kh_table),
      reconfigure_sweep_go inr fuel 0 tbl = tbl := by
    intro inr fuel tbl
    cases fuel <;> simp [reconfigure_sweep_go]
  refine ⟨?_, ?_, rfl⟩
  · intro inr newq qsid mqsid mq tbl
    unfold reconfigure
    exact hgo inr tbl.length tbl
  · unfold reconfigure
    exact hgo _ _ _

def c5op : pending := { has_value := true, key := [107], value := [[118]], fresh := true }

def c5cm : pending := { has_value := true, key := [107], value := [[118]], sent_e := e_sender }

def c5kh : keyholder := { blocked_q := [(2, c5op)], committable_q := [(1, c5cm)] }

/-- Witness for C5: a fresh blocked op behind an unacked committable op
is not promoted and nothing is sent. -/
theorem claim_C5_witness :
    c5kh.committable_q = c5kh.committable_q ∧
    c5kh.blocked_q.head? = some (2, c5op) ∧
    ([] : List effect) = [] :=
  claim_C5_fresh_delete_serialized c1cfg 1 e_leader [107] c5kh 2 c5op [] c5kh []
    rfl (Or.inl rfl) (by decide) rfl
